import Mathlib

/-!
Verification of the RDG Stuttgart song wish processor (songwish_processor.py).

The development shallowly embeds the processing core: text/URL/timestamp
normalization, the five validation checks, the per-song validation driver,
and the assembly of the Messages and Songlist output tables.  Python strings
are modelled as Lean strings (lists of characters); pandas NaN cells are
modelled as Option values (none stands for NaN / missing).  The external
metadata fetch (yt-dlp) is modelled as an explicit function parameter
returning either fetched metadata or an error marker, mirroring the dict
shape returned by get_youtube_info.  Library routines from the Python
standard library (str.strip, int(), float(), urllib.parse) are modelled
from their documented behavior; deviations are noted at each definition.
-/

namespace Songwish

abbrev Str := List Char

/-! ## Python string primitives -/

/-- Whitespace characters recognized by str.strip(); restricted to the ASCII
whitespace set (Python also strips rarer Unicode space characters). -/
def pyWhitespaceChar (c : Char) : Bool :=
  c = ' ' || c = '\t' || c = '\n' || c = '\r' || c = '\x0b' || c = '\x0c'

/-- Model of str.strip(): drop leading and trailing whitespace. -/
def pyStripL (l : Str) : Str :=
  ((l.dropWhile pyWhitespaceChar).reverse.dropWhile pyWhitespaceChar).reverse

def pyStrip (s : String) : String := String.mk (pyStripL s.data)

/-- Model of str.lower(), restricted to ASCII and the Latin-1 uppercase
letters; the full Unicode case map of Python is not needed by the code. -/
def lowerChar (c : Char) : Char :=
  if 65 ≤ c.toNat ∧ c.toNat ≤ 90 then Char.ofNat (c.toNat + 32)
  else if 0xC0 ≤ c.toNat ∧ c.toNat ≤ 0xDE ∧ c.toNat ≠ 0xD7 then Char.ofNat (c.toNat + 32)
  else c

def lowerStr (s : String) : String := String.mk (s.data.map lowerChar)

/-- startsWithL pat l: pat is a leading run of l (Python s.startswith). -/
def startsWithL : Str → Str → Bool
  | [], _ => true
  | _ :: _, [] => false
  | a :: as, b :: bs => (a = b) && startsWithL as bs

/-- containsSub text pat: pat occurs contiguously inside text
(the Python expression pat in text). -/
def containsSub (text pat : Str) : Bool :=
  match text with
  | [] => startsWithL pat []
  | _ :: cs => startsWithL pat text || containsSub cs pat

def strContains (s pat : String) : Bool := containsSub s.data pat.data

/-! ## normalize_text -/

/-- Characters kept by the final regex substitution [^a-z0-9]:
lowercase ASCII letters (97-122) and digits (48-57). -/
def isLowerAlnum (c : Char) : Bool :=
  (97 ≤ c.toNat && c.toNat ≤ 122) || (48 ≤ c.toNat && c.toNat ≤ 57)

/-- Model of unicodedata.normalize("NFKD", t).encode("ASCII", "ignore"):
ASCII characters pass through unchanged; Latin-1 letters decompose to their
ASCII base letter; every other codepoint is dropped by the ASCII encode
(the table covers the Latin-1 range, which is all the repository needs). -/
def asciiDecomp (c : Char) : List Char :=
  if c.toNat < 128 then [c]
  else if c ∈ (['à', 'á', 'â', 'ã', 'ä', 'å'] : List Char) then ['a']
  else if c = 'ç' then ['c']
  else if c ∈ (['è', 'é', 'ê', 'ë'] : List Char) then ['e']
  else if c ∈ (['ì', 'í', 'î', 'ï'] : List Char) then ['i']
  else if c = 'ñ' then ['n']
  else if c ∈ (['ò', 'ó', 'ô', 'õ', 'ö'] : List Char) then ['o']
  else if c ∈ (['ù', 'ú', 'û', 'ü'] : List Char) then ['u']
  else if c ∈ (['ý', 'ÿ'] : List Char) then ['y']
  else []

/-- Model of normalize_text: lowercase, strip accents via NFKD plus
ASCII-ignore, then remove every character outside [a-z0-9].  The none
input models a NaN cell (pd.isna). -/
def normalize_text (text : Option String) : String :=
  match text with
  | none => ""
  | some s =>
    let lowered := s.data.map lowerChar
    let asciiOnly := lowered.flatMap asciiDecomp
    String.mk (asciiOnly.filter isLowerAlnum)

/-! Lemmas for C10. -/

theorem lowerChar_of_lowerAlnum {c : Char} (h : isLowerAlnum c = true) :
    lowerChar c = c := by
  simp only [isLowerAlnum, Bool.or_eq_true, Bool.and_eq_true, decide_eq_true_eq] at h
  unfold lowerChar
  rw [if_neg (by omega), if_neg (by omega)]

theorem asciiDecomp_of_lowerAlnum {c : Char} (h : isLowerAlnum c = true) :
    asciiDecomp c = [c] := by
  simp only [isLowerAlnum, Bool.or_eq_true, Bool.and_eq_true, decide_eq_true_eq] at h
  unfold asciiDecomp
  rw [if_pos (by omega)]

theorem map_lowerChar_of_all {l : Str}
    (h : ∀ c ∈ l, isLowerAlnum c = true) : l.map lowerChar = l := by
  induction l with
  | nil => rfl
  | cons c cs ih =>
    rw [List.map_cons, lowerChar_of_lowerAlnum (h c (by simp)),
      ih (fun x hx => h x (by simp [hx]))]

theorem flatMap_asciiDecomp_of_all {l : Str}
    (h : ∀ c ∈ l, isLowerAlnum c = true) : l.flatMap asciiDecomp = l := by
  induction l with
  | nil => rfl
  | cons c cs ih =>
    rw [List.flatMap_cons, asciiDecomp_of_lowerAlnum (h c (by simp)),
      ih (fun x hx => h x (by simp [hx]))]
    rfl

/-- C10: normalize_text returns only characters in [a-z0-9] (no spaces,
uppercase, accents, or punctuation survive), and it is idempotent:
normalizing the output of normalize_text returns it unchanged. -/
theorem C10_normalize_text_range_and_idempotent :
    (∀ t : Option String, ∀ c ∈ (normalize_text t).data, isLowerAlnum c = true) ∧
    (∀ t : Option String, normalize_text (some (normalize_text t)) = normalize_text t) := by
  have hrange : ∀ t : Option String, ∀ c ∈ (normalize_text t).data, isLowerAlnum c = true := by
    intro t c hc
    match t with
    | none => simp [normalize_text] at hc
    | some s =>
      simp only [normalize_text] at hc
      exact (List.mem_filter.mp hc).2
  refine ⟨hrange, ?_⟩
  intro t
  have hall : ∀ c ∈ (normalize_text t).data, isLowerAlnum c = true := hrange t
  have h1 : (normalize_text t).data.map lowerChar = (normalize_text t).data :=
    map_lowerChar_of_all hall
  have h2 : (normalize_text t).data.flatMap asciiDecomp = (normalize_text t).data :=
    flatMap_asciiDecomp_of_all hall
  have h3 : (normalize_text t).data.filter isLowerAlnum = (normalize_text t).data :=
    List.filter_eq_self.mpr hall
  calc normalize_text (some (normalize_text t))
      = String.mk ((((normalize_text t).data.map lowerChar).flatMap
          asciiDecomp).filter isLowerAlnum) := rfl
    _ = String.mk (normalize_text t).data := by rw [h1, h2, h3]
    _ = normalize_text t := rfl

/-! ## parse_timestamp -/

/-- Split at the first occurrence of a character, if any
(Python s.split(c, 1) when c occurs). -/
def splitFirstOn (c : Char) : Str → Option (Str × Str)
  | [] => none
  | x :: xs =>
    if x = c then some ([], xs)
    else (splitFirstOn c xs).map (fun p => (x :: p.1, p.2))

/-- Model of Python s.split(c) for a single-character separator. -/
def splitOnChar (c : Char) : Str → List Str
  | [] => [[]]
  | x :: xs =>
    if x = c then [] :: splitOnChar c xs
    else
      match splitOnChar c xs with
      | [] => [[x]]
      | h :: t => (x :: h) :: t

def isDigitChar (c : Char) : Bool := 48 ≤ c.toNat && c.toNat ≤ 57

def digitsToNat (l : Str) : Nat :=
  l.foldl (fun acc c => acc * 10 + (c.toNat - 48)) 0

/-- Nonempty all-digit run parsed as a natural number. -/
def parseDigits (l : Str) : Option Nat :=
  if l ≠ [] ∧ l.all isDigitChar then some (digitsToNat l) else none

/-- Model of Python int() on a string: strip whitespace, optional sign,
nonempty digit run.  Underscore separators and non-ASCII digits, which
Python also accepts, are outside the model. -/
def pyIntL (l : Str) : Option Int :=
  match pyStripL l with
  | '-' :: rest => (parseDigits rest).map (fun n => -(n : Int))
  | '+' :: rest => (parseDigits rest).map (fun n => (n : Int))
  | l' => (parseDigits l').map (fun n => (n : Int))

/-- Model of Python int(float(s)): a finite decimal literal truncated toward
zero (dropping the fractional digits).  Exponent forms and the infinity and
NaN spellings are outside the model. -/
def pyFloatIntL (l : Str) : Option Int :=
  let l' := pyStripL l
  let signed : Bool × Str :=
    match l' with
    | '-' :: rest => (true, rest)
    | '+' :: rest => (false, rest)
    | rest => (false, rest)
  let body := signed.2
  let mag : Option Nat :=
    match splitFirstOn '.' body with
    | none => parseDigits body
    | some (ip, fp) =>
      if ip ≠ [] ∧ ip.all isDigitChar ∧ fp.all isDigitChar then some (digitsToNat ip)
      else if ip = [] ∧ fp ≠ [] ∧ fp.all isDigitChar then some 0
      else none
  mag.map (fun n => if signed.1 then -(n : Int) else (n : Int))

/-- Model of parse_timestamp.  The none input models a NaN cell; the empty
string models the falsy-input guard.  Three colon-separated components are
disambiguated by the heuristic of the source: first component < 10 and third
component 0 means minutes:seconds:00, otherwise hours:minutes:seconds.  Any
conversion failure yields 0 (the except branch). -/
def parse_timestamp (ts : Option String) : Int :=
  match ts with
  | none => 0
  | some s =>
    if s = "" then 0
    else
      let ts_str := pyStripL s.data
      match splitOnChar ':' ts_str with
      | [p1, p2, p3] =>
        match pyIntL p1, pyIntL p2, pyIntL p3 with
        | some h, some m, some sec =>
          if h < 10 ∧ sec = 0 then h * 60 + m else h * 3600 + m * 60 + sec
        | _, _, _ => 0
      | [p1, p2] =>
        match pyIntL p1, pyIntL p2 with
        | some a, some b => a * 60 + b
        | _, _ => 0
      | _ =>
        match pyFloatIntL ts_str with
        | some v => v
        | none => 0

/-- C3: the three-component heuristic of parse_timestamp, its concrete
examples, and the fact that missing or unparseable input yields 0. -/
theorem C3_parse_timestamp_heuristic :
    (∀ (s : String) (p1 p2 p3 : Str) (h m sec : Int),
      s ≠ "" →
      splitOnChar ':' (pyStripL s.data) = [p1, p2, p3] →
      pyIntL p1 = some h → pyIntL p2 = some m → pyIntL p3 = some sec →
      parse_timestamp (some s) =
        if h < 10 ∧ sec = 0 then h * 60 + m else h * 3600 + m * 60 + sec)
    ∧ parse_timestamp (some "1:30") = 90
    ∧ parse_timestamp (some "0:90:00") = 90
    ∧ parse_timestamp (some "1:30:00") = 90
    ∧ parse_timestamp (some "2:05:10") = 7510
    ∧ parse_timestamp none = 0
    ∧ parse_timestamp (some "abc") = 0 := by
  refine ⟨?_, by decide, by decide, by decide, by decide, rfl, by decide⟩
  intro s p1 p2 p3 h m sec hs hsplit h1 h2 h3
  simp only [parse_timestamp, if_neg hs, hsplit, h1, h2, h3]

/-- Witness for C3 at the concrete input 2:05:10. -/
theorem C3_parse_timestamp_heuristic_witness :
    parse_timestamp (some "2:05:10") = 7510 := by
  have h := C3_parse_timestamp_heuristic.1 "2:05:10" ['2'] ['0', '5'] ['1', '0']
    2 5 10 (by decide) (by decide) (by decide) (by decide) (by decide)
  simpa using h

/-! ## check_duration -/

def MAX_SONG_DURATION_SECONDS : Int := 90

/-- Rendering of a raw cell inside an f-string (NaN prints as nan). -/
def showOptCell (x : Option String) : String :=
  match x with
  | none => "nan"
  | some s => s

/-- Model of check_duration: parse both timestamps, fail when the
difference is nonpositive or exceeds the maximum section length. -/
def check_duration (start_ts end_ts : Option String) : Bool × Option String :=
  let start_seconds := parse_timestamp start_ts
  let end_seconds := parse_timestamp end_ts
  let duration := end_seconds - start_seconds
  if duration ≤ 0 then
    (false, some (s!"Ungültige Timestamps (Start: {showOptCell start_ts}, Ende: {showOptCell end_ts}) / Invalid timestamps (Start: {showOptCell start_ts}, End: {showOptCell end_ts})"))
  else if duration > MAX_SONG_DURATION_SECONDS then
    (false, some (s!"Songabschnitt zu lang ({duration}s > {MAX_SONG_DURATION_SECONDS}s) / Song section too long ({duration}s > {MAX_SONG_DURATION_SECONDS}s)"))
  else (true, none)

/-- C4: the duration check fails exactly when the parsed difference is
nonpositive or exceeds 90 seconds, with the boundary examples. -/
theorem C4_check_duration_boundary :
    (∀ st et : Option String,
      (check_duration st et).1 = false ↔
        (parse_timestamp et - parse_timestamp st ≤ 0 ∨
         parse_timestamp et - parse_timestamp st > 90))
    ∧ check_duration (some "0") (some "90") = (true, none)
    ∧ (check_duration (some "0") (some "91")).1 = false
    ∧ (check_duration (some "50") (some "10")).1 = false := by
  refine ⟨?_, by decide, by decide, by decide⟩
  intro st et
  unfold check_duration MAX_SONG_DURATION_SECONDS
  simp only []
  split
  · simp only [true_iff]
    left; assumption
  · split
    · simp only [true_iff]
      right; assumption
    · simp only [Bool.true_eq_false, false_iff]
      push_neg
      omega

/-! ## Video metadata model -/

/-- Attributes returned by get_youtube_info on success (the dict built from
the yt-dlp extraction). -/
structure VideoMeta where
  title : String
  description : String
  duration : Int
  age_limit : Nat
  categories : List String
  tags : List String
  channel : String
  uploader : String
deriving DecidableEq

/-- Result of the metadata fetch: either the metadata dict or the
error-marker dict built in the except branch of get_youtube_info. -/
inductive VideoInfo where
  | fetched (m : VideoMeta)
  | fetchError (e : String)
deriving DecidableEq

/-- The fail-closed message shared by checks 1 and 2. -/
def couldNotFetchMsg : String :=
  "Video konnte nicht abgerufen werden / Could not fetch video"

/-- Python ", ".join. -/
def joinSep (sep : String) : List String → String
  | [] => ""
  | [x] => x
  | x :: xs => x ++ sep ++ joinSep sep xs

/-! ## check_is_lyric_video -/

def lyric_indicators : List String :=
  ["lyric", "lyrics", "lyric video", "lyrics video", "letra", "text",
   "sing-along", "singalong"]

def negative_indicators : List String :=
  ["official mv", "official music video", "dance practice",
   "dance practice video", "choreography video", "performance video",
   "m/v", "(mv)", "[mv]"]

/-- Model of check_is_lyric_video.  A none input models the None return of
get_youtube_info on an empty URL; like the error dict it fails the check.
The title is lowercased twice in the source (title and title_lower); the
model mirrors that. -/
def check_is_lyric_video (vi : Option VideoInfo) : Bool × Option String :=
  match vi with
  | none => (false, some couldNotFetchMsg)
  | some (.fetchError _) => (false, some couldNotFetchMsg)
  | some (.fetched m) =>
    let title := lowerStr m.title
    let description := lowerStr m.description
    let tags := m.tags.map lowerStr
    let title_lower := lowerStr title
    match negative_indicators.find? (fun neg => strContains title_lower neg) with
    | some neg =>
      (false, some (s!"Kein Lyric Video (\x27{neg}\x27 im Titel gefunden) / Not a lyric video (\x27{neg}\x27 found in title)"))
    | none =>
      match lyric_indicators.find?
          (fun pos => strContains title_lower pos || strContains description pos
            || tags.contains pos) with
      | some _ => (true, none)
      | none => (true, none)

/-! ## check_artist_title_match -/

/-- Message of the artist branch of check_artist_title_match. -/
def artistNotFoundMsg (artist : Option String) : String :=
  s!"Künstler \x27{showOptCell artist}\x27 nicht im YouTube-Titel gefunden / Artist \x27{showOptCell artist}\x27 not found in YouTube title"

/-- Message of the title branch of check_artist_title_match. -/
def titleNotFoundMsg (song_title : Option String) : String :=
  s!"Songtitel \x27{showOptCell song_title}\x27 nicht im YouTube-Titel gefunden / Song title \x27{showOptCell song_title}\x27 not found in YouTube title"

/-- Model of check_artist_title_match: each of the two normalized fields
that is nonempty and absent from the normalized video title contributes one
error message; the messages are joined with a semicolon into one string. -/
def check_artist_title_match (vi : Option VideoInfo)
    (artist song_title : Option String) : Bool × Option String :=
  match vi with
  | none => (false, some couldNotFetchMsg)
  | some (.fetchError _) => (false, some couldNotFetchMsg)
  | some (.fetched m) =>
    let yt_title_normalized := normalize_text (some m.title)
    let artist_normalized := normalize_text artist
    let artistErrs : List String :=
      if artist_normalized ≠ "" ∧ strContains yt_title_normalized artist_normalized = false then
        [artistNotFoundMsg artist]
      else []
    let title_normalized := normalize_text song_title
    let titleErrs : List String :=
      if title_normalized ≠ "" ∧ strContains yt_title_normalized title_normalized = false then
        [titleNotFoundMsg song_title]
      else []
    let errors := artistErrs ++ titleErrs
    if errors ≠ [] then (false, some (joinSep "; " errors)) else (true, none)

/-! ## check_age_restriction and check_blocked_song -/

/-- Model of check_age_restriction: fail-open on a missing or failed fetch,
fail when the age limit is truthy and at least 18. -/
def check_age_restriction (vi : Option VideoInfo) : Bool × Option String :=
  match vi with
  | none => (true, none)
  | some (.fetchError _) => (true, none)
  | some (.fetched m) =>
    if m.age_limit ≠ 0 ∧ m.age_limit ≥ 18 then
      (false, some "18+ Video nicht erlaubt / 18+ video not allowed")
    else (true, none)

/-- Model of check_blocked_song: membership of the normalized pair in the
blocked set (the set is modelled as a list of pairs). -/
def check_blocked_song (artist title : Option String)
    (blocked_songs : List (String × String)) : Bool × Option String :=
  if blocked_songs.contains (normalize_text artist, normalize_text title) then
    (false, some "Song ist auf der Blockliste / Song is on the blocked list")
  else (true, none)

/-! Lemmas for C5. -/

theorem toNat_ofNat_of_lt {n : Nat} (h : n < 55296) : (Char.ofNat n).toNat = n := by
  have hv : n.isValidChar := Or.inl h
  simp only [Char.ofNat, Char.toNat, Char.ofNatAux, hv, dif_pos]
  rfl

theorem lowerChar_idem (c : Char) : lowerChar (lowerChar c) = lowerChar c := by
  by_cases h1 : 65 ≤ c.toNat ∧ c.toNat ≤ 90
  · have hv : (Char.ofNat (c.toNat + 32)).toNat = c.toNat + 32 :=
      toNat_ofNat_of_lt (by omega)
    unfold lowerChar
    rw [if_pos h1, if_neg (by omega), if_neg (by omega)]
  · by_cases h2 : 192 ≤ c.toNat ∧ c.toNat ≤ 222 ∧ c.toNat ≠ 215
    · have hv : (Char.ofNat (c.toNat + 32)).toNat = c.toNat + 32 :=
        toNat_ofNat_of_lt (by omega)
      unfold lowerChar
      rw [if_neg h1, if_pos h2, if_neg (by omega), if_neg (by omega)]
    · unfold lowerChar
      rw [if_neg h1, if_neg h2, if_neg h1, if_neg h2]

theorem lowerStr_idem (s : String) : lowerStr (lowerStr s) = lowerStr s := by
  unfold lowerStr
  simp only [List.map_map]
  congr 1
  exact List.map_congr_left (fun c _ => lowerChar_idem c)

/-- C5: on fetched metadata the lyric-video check fails exactly when a
negative indicator occurs as a substring of the lowercased video title;
positive indicators are never required (absence of any indicator still
passes); a failed or missing fetch fails the check. -/
theorem C5_lyric_video_negative_indicators :
    (∀ m : VideoMeta,
      (check_is_lyric_video (some (.fetched m))).1 = false ↔
        ∃ neg ∈ negative_indicators, strContains (lowerStr m.title) neg = true)
    ∧ (∀ e : String, (check_is_lyric_video (some (.fetchError e))).1 = false)
    ∧ (check_is_lyric_video none).1 = false := by
  refine ⟨?_, fun _ => rfl, rfl⟩
  intro m
  have hl : lowerStr (lowerStr m.title) = lowerStr m.title := lowerStr_idem m.title
  simp only [check_is_lyric_video, hl]
  rcases hfind : negative_indicators.find? (fun neg => strContains (lowerStr m.title) neg) with _ | neg
  · simp only []
    constructor
    · intro hcontra
      exfalso
      rcases hfind2 : lyric_indicators.find?
          (fun pos => strContains (lowerStr m.title) pos
            || strContains (lowerStr m.description) pos
            || (m.tags.map lowerStr).contains pos) with _ | pos <;>
        rw [hfind2] at hcontra <;> simp at hcontra
    · rintro ⟨neg, hmem, hsub⟩
      have := List.find?_eq_none.mp hfind neg hmem
      simp [hsub] at this
  · simp only [true_iff]
    exact ⟨neg, List.mem_of_find?_eq_some hfind, by
      have := List.find?_some hfind
      simpa using this⟩

/-- C6: at the level of the individual checks a FetchFailure input makes the
age-restriction check pass (fail-open) while it makes the artist/title check
and the lyric-video check fail with the could-not-fetch reason
(fail-closed). -/
theorem C6_fetch_failure_policies :
    ∀ (e : String) (artist title : Option String),
      check_age_restriction (some (.fetchError e)) = (true, none)
      ∧ check_artist_title_match (some (.fetchError e)) artist title
          = (false, some couldNotFetchMsg)
      ∧ check_is_lyric_video (some (.fetchError e))
          = (false, some couldNotFetchMsg) := by
  intro e artist title
  exact ⟨rfl, rfl, rfl⟩

/-! ## urllib.parse model

The code calls urlparse, parse_qs and urlencode.  These are modelled from
the CPython implementation (urllib/parse.py): scheme detection, netloc
splitting on //, fragment and query splitting, path-parameter splitting,
percent-encoding over UTF-8 bytes.  The control-character sanitization that
newer CPython versions apply inside urlsplit is outside the model (the code
strips surrounding whitespace itself). -/

def isAsciiAlpha (c : Char) : Bool :=
  (65 ≤ c.toNat && c.toNat ≤ 90) || (97 ≤ c.toNat && c.toNat ≤ 122)

/-- Characters allowed in a URL scheme (letters, digits, plus, minus, dot). -/
def schemeChar (c : Char) : Bool :=
  isAsciiAlpha c || (48 ≤ c.toNat && c.toNat ≤ 57) || c = '+' || c = '-' || c = '.'

/-- Scheme detection of urlsplit: the part before the first colon is taken
as the scheme (lowercased) when it is nonempty, starts with an ASCII letter
and consists of scheme characters; otherwise there is no scheme. -/
def schemeSplit (l : Str) : Str × Str :=
  match splitFirstOn ':' l with
  | some (pre, post) =>
    if pre ≠ [] ∧ isAsciiAlpha (pre.headD ' ') = true ∧ pre.all schemeChar then
      (pre.map lowerChar, post)
    else ([], l)
  | none => ([], l)

def netlocStop (c : Char) : Bool := c = '/' || c = '?' || c = '#'

/-- Netloc splitting of urlsplit: only when the remainder starts with two
slashes; the netloc extends to the next slash, question mark or hash. -/
def netlocSplit (l : Str) : Str × Str :=
  match l with
  | '/' :: '/' :: rest =>
    (rest.takeWhile (fun c => !netlocStop c), rest.dropWhile (fun c => !netlocStop c))
  | _ => ([], l)

/-- Split at the last occurrence of a character, if any. -/
def splitLastOn (c : Char) (l : Str) : Option (Str × Str) :=
  match splitFirstOn c l.reverse with
  | some (ra, rb) => some (rb.reverse, ra.reverse)
  | none => none

/-- Path-parameter splitting of urlparse: parameters start at the first
semicolon at or after the last slash of the path. -/
def splitParams (p : Str) : Str × Str :=
  match splitLastOn '/' p with
  | some (before, after) =>
    (match splitFirstOn ';' after with
     | some (a, ps) => (before ++ '/' :: a, ps)
     | none => (before ++ '/' :: after, []))
  | none =>
    (match splitFirstOn ';' p with
     | some (a, ps) => (a, ps)
     | none => (p, []))

structure PyUrl where
  scheme : Str
  netloc : Str
  path : Str
  params : Str
  query : Str
  fragment : Str
deriving DecidableEq

/-- Model of urlparse: scheme, netloc, fragment, query, then path
parameters, in the order of the CPython implementation. -/
def urlparseL (l : Str) : PyUrl :=
  let sp := schemeSplit l
  let np := netlocSplit sp.2
  let fp : Str × Str :=
    match splitFirstOn '#' np.2 with
    | some (a, b) => (a, b)
    | none => (np.2, [])
  let qp : Str × Str :=
    match splitFirstOn '?' fp.1 with
    | some (a, b) => (a, b)
    | none => (fp.1, [])
  let pp := splitParams qp.1
  ⟨sp.1, np.1, pp.1, pp.2, qp.2, fp.2⟩

/-! Percent-encoding (urllib quote_plus / unquote_plus). -/

/-- Characters quote never encodes (letters, digits, underscore, dot,
minus, tilde); urlencode passes safe as the empty string. -/
def alwaysSafe (c : Char) : Bool :=
  (65 ≤ c.toNat && c.toNat ≤ 90) || (97 ≤ c.toNat && c.toNat ≤ 122)
    || (48 ≤ c.toNat && c.toNat ≤ 57) || c = '_' || c = '.' || c = '-' || c = '~'

/-- UTF-8 bytes of one code point. -/
def utf8Encode (c : Char) : List Nat :=
  let v := c.toNat
  if v < 0x80 then [v]
  else if v < 0x800 then [0xC0 + v / 64, 0x80 + v % 64]
  else if v < 0x10000 then [0xE0 + v / 4096, 0x80 + (v / 64) % 64, 0x80 + v % 64]
  else [0xF0 + v / 0x40000, 0x80 + (v / 4096) % 64, 0x80 + (v / 64) % 64, 0x80 + v % 64]

def hexDigits : Str :=
  ['0', '1', '2', '3', '4', '5', '6', '7', '8', '9', 'A', 'B', 'C', 'D', 'E', 'F']

def hexDigitUpper (d : Nat) : Char := hexDigits.getD d '0'

def percentByte (b : Nat) : Str := ['%', hexDigitUpper (b / 16), hexDigitUpper (b % 16)]

def quotePlusChar (c : Char) : Str :=
  if alwaysSafe c then [c]
  else if c = ' ' then ['+']
  else (utf8Encode c).flatMap percentByte

/-- Model of quote_plus with empty safe set, as used by urlencode. -/
def quotePlusL (l : Str) : Str := l.flatMap quotePlusChar

def hexVal (c : Char) : Option Nat :=
  if 48 ≤ c.toNat ∧ c.toNat ≤ 57 then some (c.toNat - 48)
  else if 97 ≤ c.toNat ∧ c.toNat ≤ 102 then some (c.toNat - 87)
  else if 65 ≤ c.toNat ∧ c.toNat ≤ 70 then some (c.toNat - 55)
  else none

/-- Tokens of unquote: a decoded percent byte or a literal character. -/
abbrev UqTok := Sum Nat Char

def unquoteTokens : Str → List UqTok
  | [] => []
  | c :: rest =>
    let rescan := unquoteTokens rest
    if c = '%' then
      match rest with
      | h1 :: h2 :: rest2 =>
        match hexVal h1, hexVal h2 with
        | some a, some b => .inl (a * 16 + b) :: unquoteTokens rest2
        | _, _ => .inr '%' :: rescan
      | _ => .inr '%' :: rescan
    else .inr c :: rescan

def replChar : Char := '�'

def contOk (b : Nat) : Bool := 0x80 ≤ b && b ≤ 0xBF

/-- Valid range of the first continuation byte of a three-byte sequence. -/
def cont1Ok3 (b b1 : Nat) : Bool :=
  if b = 0xE0 then 0xA0 ≤ b1 && b1 ≤ 0xBF
  else if b = 0xED then 0x80 ≤ b1 && b1 ≤ 0x9F
  else contOk b1

/-- Valid range of the first continuation byte of a four-byte sequence. -/
def cont1Ok4 (b b1 : Nat) : Bool :=
  if b = 0xF0 then 0x90 ≤ b1 && b1 ≤ 0xBF
  else if b = 0xF4 then 0x80 ≤ b1 && b1 ≤ 0x8F
  else contOk b1

/-- Continuation of a two-byte sequence: rest1 is the decoded remainder
after the continuation byte, rescan the decoded remainder from the
continuation position (used when the byte does not continue the
sequence). -/
def decode2 (b : Nat) (ts : List UqTok) (rescan rest1 : Str) : Str :=
  match ts with
  | .inl b1 :: _ =>
    if contOk b1 then
      Char.ofNat ((b - 0xC0) * 64 + (b1 - 0x80)) :: rest1
    else replChar :: rescan
  | _ => replChar :: rescan

/-- Continuation of a three-byte sequence. -/
def decode3 (b : Nat) (ts : List UqTok) (rescan rescan1 rest2 : Str) : Str :=
  match ts with
  | .inl b1 :: ts2 =>
    if cont1Ok3 b b1 then
      match ts2 with
      | .inl b2 :: _ =>
        if contOk b2 then
          Char.ofNat ((b - 0xE0) * 4096 + (b1 - 0x80) * 64 + (b2 - 0x80)) :: rest2
        else replChar :: rescan1
      | _ => replChar :: rescan1
    else replChar :: rescan
  | _ => replChar :: rescan

/-- Continuation of a four-byte sequence. -/
def decode4 (b : Nat) (ts : List UqTok) (rescan rescan1 rescan2 rest3 : Str) : Str :=
  match ts with
  | .inl b1 :: ts2 =>
    if cont1Ok4 b b1 then
      match ts2 with
      | .inl b2 :: ts3 =>
        if contOk b2 then
          match ts3 with
          | .inl b3 :: _ =>
            if contOk b3 then
              Char.ofNat ((b - 0xF0) * 0x40000 + (b1 - 0x80) * 4096
                + (b2 - 0x80) * 64 + (b3 - 0x80)) :: rest3
            else replChar :: rescan2
          | _ => replChar :: rescan2
        else replChar :: rescan1
      | _ => replChar :: rescan1
    else replChar :: rescan
  | _ => replChar :: rescan

/-- UTF-8 decoding of the byte runs inside the token stream, with
errors-replace handling: an ill-formed sequence yields one replacement
character for its maximal valid subpart.  Exact on well-formed input. -/
def decodeTokens : List UqTok → Str
  | [] => []
  | .inr c :: ts => c :: decodeTokens ts
  | .inl b :: ts =>
    if b < 0x80 then Char.ofNat b :: decodeTokens ts
    else if 0xC2 ≤ b ∧ b ≤ 0xDF then
      decode2 b ts (decodeTokens ts) (decodeTokens ts.tail)
    else if 0xE0 ≤ b ∧ b ≤ 0xEF then
      decode3 b ts (decodeTokens ts) (decodeTokens ts.tail)
        (decodeTokens ts.tail.tail)
    else if 0xF0 ≤ b ∧ b ≤ 0xF4 then
      decode4 b ts (decodeTokens ts) (decodeTokens ts.tail)
        (decodeTokens ts.tail.tail) (decodeTokens ts.tail.tail.tail)
    else replChar :: decodeTokens ts
termination_by ts => ts.length
decreasing_by all_goals simp [List.length_tail] <;> omega

def unquoteL (l : Str) : Str := decodeTokens (unquoteTokens l)

/-- Model of unquote_plus: plus becomes space, then percent decoding. -/
def unquotePlusL (l : Str) : Str :=
  unquoteL (l.map (fun c => if c = '+' then ' ' else c))

/-! parse_qs and urlencode. -/

/-- One segment of parse_qsl: empty segments, segments without an equals
sign and segments with a blank value are skipped; name and value are
percent-decoded. -/
def qsSegParse (seg : Str) : Option (Str × Str) :=
  if seg = [] then none
  else
    match splitFirstOn '=' seg with
    | none => none
    | some (n, v) =>
      if v = [] then none else some (unquotePlusL n, unquotePlusL v)

/-- Model of parse_qsl with default arguments: split on ampersands and
parse each segment. -/
def parse_qslL (qs : Str) : List (Str × Str) :=
  (splitOnChar '&' qs).filterMap qsSegParse

/-- Dict insertion of parse_qs: append to the value list of an existing
key, otherwise add the key at the end. -/
def addPair : List (Str × List Str) → Str × Str → List (Str × List Str)
  | [], kv => [(kv.1, [kv.2])]
  | e :: es, kv =>
    if e.1 = kv.1 then (e.1, e.2 ++ [kv.2]) :: es else e :: addPair es kv

/-- Model of parse_qs: group the pairs into an insertion-ordered dict. -/
def parse_qsL (qs : Str) : List (Str × List Str) :=
  (parse_qslL qs).foldl addPair []

def joinChar (c : Char) : List Str → Str
  | [] => []
  | [x] => x
  | x :: xs => x ++ c :: joinChar c xs

/-- Model of urlencode with doseq=True: one key=value segment per list
element, keys and values quoted, segments joined with ampersands. -/
def urlencodeL (d : List (Str × List Str)) : Str :=
  joinChar '&'
    (d.flatMap (fun kv => kv.2.map (fun v => quotePlusL kv.1 ++ '=' :: quotePlusL v)))

/-! ## clean_youtube_url -/

def params_to_remove : List Str :=
  [('l' :: 'i' :: 's' :: 't' :: []),
   ('i' :: 'n' :: 'd' :: 'e' :: 'x' :: []),
   ('s' :: 't' :: 'a' :: 'r' :: 't' :: '_' :: 'r' :: 'a' :: 'd' :: 'i' :: 'o' :: []),
   ('p' :: 'p' :: [])]

/-- Model of clean_youtube_url: strip, parse, drop the playlist and
autoplay query parameters, rebuild scheme://netloc+path with the remaining
query if any.  A NaN or empty input yields none. -/
def clean_youtube_url (url : Option String) : Option String :=
  match url with
  | none => none
  | some u =>
    if u = "" then none
    else
      let l := pyStripL u.data
      let p := urlparseL l
      let query_params :=
        (parse_qsL p.query).filter (fun kv => !(params_to_remove.contains kv.1))
      if query_params ≠ [] then
        some (String.mk (p.scheme ++ ':' :: '/' :: '/' :: p.netloc ++ p.path
          ++ '?' :: urlencodeL query_params))
      else
        some (String.mk (p.scheme ++ ':' :: '/' :: '/' :: p.netloc ++ p.path))

/-- C8 counterexample: clean_youtube_url is not idempotent.  A URL without
a scheme is rebuilt with a :// prepended, and cleaning that output prepends
another ://, so the second application changes the string again. -/
theorem C8_counterexample_not_idempotent :
    clean_youtube_url (some "a") = some "://a"
    ∧ clean_youtube_url (some "://a") = some "://://a" := by
  exact ⟨rfl, rfl⟩

/-! ## validate_song -/

def noUrlMsg : String := "Keine URL angegeben / No URL provided"

/-- Model of validate_song.  The metadata fetch is an explicit parameter
standing for get_youtube_info; none models its None return, the fetchError
variant the error dict.  When the fetch yields the error dict the function
returns the single YouTube-error reason immediately; otherwise the five
checks run in order, each failing check appending its reason. -/
def validate_song (fetch : String → Option VideoInfo)
    (url artist title start_ts end_ts : Option String)
    (blocked_songs : List (String × String)) : List String × Option String :=
  match clean_youtube_url url with
  | none => ([noUrlMsg], none)
  | some cu =>
    if cu = "" then ([noUrlMsg], some cu)
    else
      let video_info := fetch cu
      match video_info with
      | some (.fetchError e) =>
        ([s!"YouTube-Fehler: {e} / YouTube error: {e}"], some cu)
      | _ =>
        let m := check_artist_title_match video_info artist title
        let errors1 : List String := if m.1 then [] else [m.2.getD ""]
        let ly := check_is_lyric_video video_info
        let errors2 := if ly.1 then errors1 else errors1 ++ [ly.2.getD ""]
        let du := check_duration start_ts end_ts
        let errors3 := if du.1 then errors2 else errors2 ++ [du.2.getD ""]
        let ag := check_age_restriction video_info
        let errors4 := if ag.1 then errors3 else errors3 ++ [ag.2.getD ""]
        let bl := check_blocked_song artist title blocked_songs
        let errors5 := if bl.1 then errors4 else errors4 ++ [bl.2.getD ""]
        (errors5, some cu)

/-- C1 counterexample: with metadata fetch failing, validate_song returns
the single YouTube-error reason and short-circuits; the fail-closed reasons
of checks 1 and 2 do not appear in the verdict, contradicting the claim
that all five checks run on a FetchFailure. -/
theorem C1_counterexample_short_circuit :
    validate_song (fun _ => some (.fetchError "boom")) (some "http://a/b")
        (some "X") (some "Y") (some "0") (some "90") []
      = (["YouTube-Fehler: boom / YouTube error: boom"], some "http://a/b")
    ∧ couldNotFetchMsg ∉
        (validate_song (fun _ => some (.fetchError "boom")) (some "http://a/b")
          (some "X") (some "Y") (some "0") (some "90") []).1 := by
  constructor
  · rfl
  · decide

/-- C1 amended: when the fetch returns the error marker, validate_song
short-circuits and the verdict is exactly the single YouTube-error reason
(checks 1 to 5 are not run; their fail-closed and fail-open behavior lives
in the individual check functions, see C6). -/
theorem C1_amended_fetch_failure_single_reason :
    ∀ (fetch : String → Option VideoInfo)
      (url artist title start_ts end_ts : Option String)
      (blocked_songs : List (String × String)) (cu e : String),
      clean_youtube_url url = some cu → cu ≠ "" →
      fetch cu = some (.fetchError e) →
      validate_song fetch url artist title start_ts end_ts blocked_songs
        = ([s!"YouTube-Fehler: {e} / YouTube error: {e}"], some cu) := by
  intro fetch url artist title start_ts end_ts blocked_songs cu e hclean hne hfetch
  unfold validate_song
  rw [hclean]
  simp only [if_neg hne, hfetch]

/-- Witness for the amended C1 at a concrete input. -/
theorem C1_amended_fetch_failure_single_reason_witness :
    validate_song (fun _ => some (.fetchError "gone")) (some "http://a/b")
        none none none none []
      = (["YouTube-Fehler: gone / YouTube error: gone"], some "http://a/b") := by
  exact C1_amended_fetch_failure_single_reason (fun _ => some (.fetchError "gone"))
    (some "http://a/b") none none none none [] "http://a/b" "gone"
    (by decide) (by decide) rfl

/-- C7 counterexample: when both the artist and the title are missing from
the video title, the two messages are joined into ONE verdict entry; the
verdict has length 1, not two separate reasons. -/
theorem C7_counterexample_joined_reasons :
    (validate_song
        (fun _ => some (.fetched
          { title := "ZZZ", description := "", duration := 0, age_limit := 0,
            categories := [], tags := [], channel := "", uploader := "" }))
        (some "http://a/b") (some "Alpha") (some "Beta") (some "0") (some "90") []).1
      = ["Künstler \x27Alpha\x27 nicht im YouTube-Titel gefunden / Artist \x27Alpha\x27 not found in YouTube title; Songtitel \x27Beta\x27 nicht im YouTube-Titel gefunden / Song title \x27Beta\x27 not found in YouTube title"]
    ∧ (validate_song
        (fun _ => some (.fetched
          { title := "ZZZ", description := "", duration := 0, age_limit := 0,
            categories := [], tags := [], channel := "", uploader := "" }))
        (some "http://a/b") (some "Alpha") (some "Beta") (some "0") (some "90") []).1.length
      = 1 := by
  constructor
  · rfl
  · rfl

/-- C7 amended: inside check_artist_title_match the artist failure and the
title failure are independent and both fire, but the two messages are
joined with a semicolon into a single Reason string of the Verdict. -/
theorem C7_amended_both_fire_joined :
    ∀ (m : VideoMeta) (artist title : Option String),
      normalize_text artist ≠ "" →
      strContains (normalize_text (some m.title)) (normalize_text artist) = false →
      normalize_text title ≠ "" →
      strContains (normalize_text (some m.title)) (normalize_text title) = false →
      check_artist_title_match (some (.fetched m)) artist title
        = (false, some (artistNotFoundMsg artist ++ "; " ++ titleNotFoundMsg title)) := by
  intro m artist title ha1 ha2 ht1 ht2
  unfold check_artist_title_match
  simp only [if_pos (And.intro ha1 ha2), if_pos (And.intro ht1 ht2)]
  simp [joinSep]

/-- Witness for the amended C7 at a concrete input. -/
theorem C7_amended_both_fire_joined_witness :
    check_artist_title_match
        (some (.fetched
          { title := "ZZZ", description := "", duration := 0, age_limit := 0,
            categories := [], tags := [], channel := "", uploader := "" }))
        (some "Alpha") (some "Beta")
      = (false, some (artistNotFoundMsg (some "Alpha") ++ "; "
          ++ titleNotFoundMsg (some "Beta"))) := by
  exact C7_amended_both_fire_joined
    { title := "ZZZ", description := "", duration := 0, age_limit := 0,
      categories := [], tags := [], channel := "", uploader := "" }
    (some "Alpha") (some "Beta") (by decide) (by decide) (by decide) (by decide)

/-! ## Submission rows and per-row results -/

/-- Columns of one input row that the processing loop reads.  none models a
NaN cell or a missing column. -/
structure InputRow where
  email : Option String
  language : Option String
  contact_pref : Option String
  instagram : Option String
  whatsapp : Option String
  other_contact : Option String
  yt_url1 : Option String
  artist1 : Option String
  title1 : Option String
  start1 : Option String
  end1 : Option String
  note1 : Option String
  yt_url2 : Option String
  artist2 : Option String
  title2 : Option String
  start2 : Option String
  end2 : Option String
  note2 : Option String
deriving DecidableEq

/-- Python truthiness of a string cell: NaN and the empty string are falsy. -/
def truthyOpt : Option String → Bool
  | none => false
  | some s => s ≠ ""

def keepDigitPlus (c : Char) : Bool := (48 ≤ c.toNat && c.toNat ≤ 57) || c = '+'

/-- Drop a single leading at-sign (the startswith branch). -/
def dropAt (s : String) : String :=
  match s.data with
  | '@' :: rest => String.mk rest
  | _ => s

/-- Model of create_contact_url: Instagram profile link, WhatsApp link with
cleaned phone number, or the free-text fallback contact. -/
def create_contact_url (row : InputRow) : String :=
  if row.contact_pref = some "Instagram" ∧ truthyOpt row.instagram then
    "https://www.instagram.com/" ++ dropAt (pyStrip (row.instagram.getD ""))
  else if row.contact_pref = some "WhatsApp" ∧ truthyOpt row.whatsapp then
    let phone := String.mk ((row.whatsapp.getD "").data.filter keepDigitPlus)
    let phone := if startsWithL ['+'] phone.data then phone
      else String.mk ('+' :: phone.data)
    "https://wa.me/" ++ String.mk (phone.data.filter (fun c => c ≠ '+'))
  else
    match row.other_contact with
    | some oc => if oc ≠ "" then oc else ""
    | none => ""

/-- Model of get_greeting_name: the cleaned Instagram handle when Instagram
is the preferred contact method, otherwise no name. -/
def get_greeting_name (row : InputRow) : Option String :=
  if row.contact_pref = some "Instagram" ∧ truthyOpt row.instagram then
    some (dropAt (pyStrip (row.instagram.getD "")))
  else none

/-- Leading run of a string up to the first occurrence of a separator
(Python e.split(sep)[0]). -/
def takeUntilSep (sep : Str) : Str → Str
  | [] => []
  | c :: rest =>
    if startsWithL sep (c :: rest) then [] else c :: takeUntilSep sep rest

/-- Trailing run of a string after the last occurrence of a separator
(Python e.split(sep)[-1]). -/
def afterLastSep (sep : Str) (l : Str) : Str :=
  (takeUntilSep sep.reverse l.reverse).reverse

def FORM_URL : String := "https://forms.gle/YOUR_FORM_URL_HERE"

def MSG_SEP : Str := [' ', '/', ' ']

/-- Model of create_message: bilingual templated text keyed on the language
marker, with the German or English half of each reason selected by
splitting on the separator. -/
def create_message (row : InputRow) (errors : List String)
    (language : Option String) (form_url : String) : String :=
  let name := get_greeting_name row
  let is_german := strContains (showOptCell language) "🇩🇪"
    || strContains (showOptCell language) "Deutsch"
  if is_german then
    let greeting := match name with
      | some n => s!"Hallo {n}! 👋"
      | none => "Hallo! 👋"
    if errors = [] then
      greeting ++ "\n\nVielen Dank für deinen Songwunsch beim RDG Stuttgart! 🎵\n\nDein Songwunsch wurde erfolgreich geprüft und wird auf die Playlist aufgenommen, sobald du auf diese Nachricht antwortest/reagierst.\n\nWir freuen uns auf dich! 🎉"
    else
      let error_list := joinSep "\n"
        (errors.map (fun e => "• " ++ String.mk (takeUntilSep MSG_SEP e.data)))
      greeting ++ "\n\nVielen Dank für deinen Songwunsch beim RDG Stuttgart! 🎵\n\nLeider gibt es ein Problem mit deinem Songwunsch:\n\n"
        ++ error_list
        ++ s!"\n\nBitte korrigiere deinen Songwunsch über dieses Formular: {form_url}\n\nAntworte auf diese Nachricht, sobald du die Korrektur vorgenommen hast. Ansonsten ist der Songwunsch leider ungültig.\n\nBei Fragen kannst du dich gerne melden! 💬"
  else
    let greeting := match name with
      | some n => s!"Hello {n}! 👋"
      | none => "Hello! 👋"
    if errors = [] then
      greeting ++ "\n\nThank you for your song wish at RDG Stuttgart! 🎵\n\nYour song wish has been successfully verified and will be added to the playlist once you reply/react to this message.\n\nWe look forward to seeing you! 🎉"
    else
      let error_list := joinSep "\n"
        (errors.map (fun e => "• " ++ String.mk (afterLastSep MSG_SEP e.data)))
      greeting ++ "\n\nThank you for your song wish at RDG Stuttgart! 🎵\n\nUnfortunately, there is a problem with your song wish:\n\n"
        ++ error_list
        ++ s!"\n\nPlease correct your song wish using this form: {form_url}\n\nReply to this message once you have made the correction. Otherwise, your song wish will be invalid.\n\nFeel free to reach out if you have any questions! 💬"

/-- One entry of the results list built by the processing loop. -/
structure ResultRec where
  row_index : Nat
  email : Option String
  language : Option String
  contact_pref : Option String
  instagram : Option String
  whatsapp : Option String
  other_contact : Option String
  url1 : Option String
  artist1 : Option String
  title1 : Option String
  start1 : Option String
  end1 : Option String
  note1 : Option String
  errors1 : List String
  url2 : Option String
  artist2 : Option String
  title2 : Option String
  start2 : Option String
  end2 : Option String
  note2 : Option String
  errors2 : List String
  contact_url : String
  message : String
deriving DecidableEq

/-- One iteration of the processing loop: validate the primary song, the
secondary song only when its URL cell is truthy, and render the contact
and message cells. -/
def buildResult (fetch : String → Option VideoInfo)
    (blocked : List (String × String)) (form_url : String)
    (idx : Nat) (row : InputRow) : ResultRec :=
  let v1 := validate_song fetch row.yt_url1 row.artist1 row.title1
    row.start1 row.end1 blocked
  let v2 :=
    if truthyOpt row.yt_url2 then
      validate_song fetch row.yt_url2 row.artist2 row.title2
        row.start2 row.end2 blocked
    else ([], none)
  { row_index := idx
    email := row.email
    language := row.language
    contact_pref := row.contact_pref
    instagram := row.instagram
    whatsapp := row.whatsapp
    other_contact := row.other_contact
    url1 := v1.2
    artist1 := row.artist1
    title1 := row.title1
    start1 := row.start1
    end1 := row.end1
    note1 := row.note1
    errors1 := v1.1
    url2 := v2.2
    artist2 := row.artist2
    title2 := row.title2
    start2 := row.start2
    end2 := row.end2
    note2 := row.note2
    errors2 := v2.1
    contact_url := create_contact_url row
    message := create_message row v1.1 row.language form_url }

/-- The processing loop over all submission rows. -/
def buildResults (fetch : String → Option VideoInfo)
    (blocked : List (String × String)) (form_url : String)
    (rows : List InputRow) : List ResultRec :=
  rows.enum.map (fun p => buildResult fetch blocked form_url p.1 p.2)

/-! ## Messages sheet -/

def FIRST_GUARANTEED_COUNT : Nat := 50

/-- One data row of the Messages sheet (columns index, contact URL,
message, status, artist, title, errors; the fill color is presentational
and determined by the status). -/
structure MessageRow where
  idx : Nat
  contact_url : String
  message : String
  status : String
  artist : Option String
  title : Option String
  errors : String
deriving DecidableEq

def mkMessageRow (i : Nat) (r : ResultRec) : MessageRow :=
  { idx := i + 1
    contact_url := r.contact_url
    message := r.message
    status := if r.errors1 ≠ [] then "Fehler / Error" else "OK"
    artist := r.artist1
    title := r.title1
    errors := if r.errors1 ≠ [] then joinSep "; " r.errors1 else "" }

def messageRowsLoop : List ResultRec → Nat → List MessageRow
  | [], _ => []
  | r :: rs, i => mkMessageRow i r :: messageRowsLoop rs (i + 1)

/-- The Messages sheet: one row per result, restricted to the first 50. -/
def messageTable (results : List ResultRec) : List MessageRow :=
  messageRowsLoop (results.take FIRST_GUARANTEED_COUNT) 0

/-! ## Songlist sheet -/

/-- The payload columns of one Songlist row (everything except the running
sequence number). -/
structure SongRowData where
  url : Option String
  artist : Option String
  title : Option String
  description : String
  requester : Option String
  startMin : Int
  startSec : Int
  endMin : Int
  endSec : Int
  startSeconds : Int
  endSeconds : Int
  note : String
  errors : String
  flagged : Bool
deriving DecidableEq

/-- One Songlist row: the payload plus the sequence-number column. -/
structure SongRow extends SongRowData where
  seq : Nat
deriving DecidableEq

/-- Payload of a primary-song row.  The minute and second columns use floor
division and nonnegative remainder, matching the Python operators. -/
def mkSongData1 (r : ResultRec) : SongRowData :=
  let start_seconds := parse_timestamp r.start1
  let end_seconds := parse_timestamp r.end1
  { url := r.url1
    artist := r.artist1
    title := r.title1
    description := ""
    requester := r.email
    startMin := Int.ediv start_seconds 60
    startSec := Int.emod start_seconds 60
    endMin := Int.ediv end_seconds 60
    endSec := Int.emod end_seconds 60
    startSeconds := start_seconds
    endSeconds := end_seconds
    note := r.note1.getD ""
    errors := if r.errors1 ≠ [] then joinSep "; " r.errors1 else ""
    flagged := decide (r.errors1 ≠ []) }

/-- Payload of a secondary-song row. -/
def mkSongData2 (r : ResultRec) : SongRowData :=
  let start_seconds := parse_timestamp r.start2
  let end_seconds := parse_timestamp r.end2
  { url := r.url2
    artist := r.artist2
    title := r.title2
    description := ""
    requester := r.email
    startMin := Int.ediv start_seconds 60
    startSec := Int.emod start_seconds 60
    endMin := Int.ediv end_seconds 60
    endSec := Int.emod end_seconds 60
    startSeconds := start_seconds
    endSeconds := end_seconds
    note := r.note2.getD ""
    errors := if r.errors2 ≠ [] then joinSep "; " r.errors2 else ""
    flagged := decide (r.errors2 ≠ []) }

/-- First loop over the results: one row per truthy primary URL, the
counter advancing only on emitted rows. -/
def songRows1 : List ResultRec → Nat → List SongRow
  | [], _ => []
  | r :: rs, k =>
    if truthyOpt r.url1 then
      { toSongRowData := mkSongData1 r, seq := k } :: songRows1 rs (k + 1)
    else songRows1 rs k

/-- Second loop over the results: one row per truthy secondary URL. -/
def songRows2 : List ResultRec → Nat → List SongRow
  | [], _ => []
  | r :: rs, k =>
    if truthyOpt r.url2 then
      { toSongRowData := mkSongData2 r, seq := k } :: songRows2 rs (k + 1)
    else songRows2 rs k

/-- The Songlist sheet: all primary-song rows, then all secondary-song
rows, with one running counter across both loops. -/
def songlistTable (results : List ResultRec) : List SongRow :=
  let first := songRows1 results 1
  first ++ songRows2 results (1 + first.length)

/-! ## Lemmas about the canonical URL and the validate result -/

theorem clean_ne_empty : ∀ (u : Option String) (s : String),
    clean_youtube_url u = some s → s ≠ "" := by
  intro u s h hs
  subst hs
  cases u with
  | none => simp [clean_youtube_url] at h
  | some v =>
    by_cases hv : v = ""
    · simp [clean_youtube_url, hv] at h
    · simp only [clean_youtube_url, if_neg hv] at h
      split at h <;>
      · simp only [Option.some.injEq] at h
        have hd := congrArg String.data h
        simp at hd

theorem truthy_validate_snd (fetch : String → Option VideoInfo)
    (url artist title st et : Option String)
    (blocked : List (String × String)) :
    truthyOpt (validate_song fetch url artist title st et blocked).2
      = (validate_song fetch url artist title st et blocked).2.isSome := by
  unfold validate_song
  cases hc : clean_youtube_url url with
  | none => rfl
  | some cu =>
    have hne : cu ≠ "" := clean_ne_empty url cu hc
    rcases hf : fetch cu with _ | (m | e) <;> simp [hf, truthyOpt, hne]

/-! ## Lemmas about the Messages sheet -/

theorem length_messageRowsLoop :
    ∀ (l : List ResultRec) (i : Nat), (messageRowsLoop l i).length = l.length := by
  intro l
  induction l with
  | nil => intro i; rfl
  | cons r rs ih => intro i; simp [messageRowsLoop, ih]

theorem get_messageRowsLoop :
    ∀ (l : List ResultRec) (i j : Nat) (h : j < (messageRowsLoop l i).length)
      (h2 : j < l.length),
      (messageRowsLoop l i).get ⟨j, h⟩ = mkMessageRow (i + j) (l.get ⟨j, h2⟩) := by
  intro l
  induction l with
  | nil => intro i j h h2; simp at h2
  | cons r rs ih =>
    intro i j h h2
    cases j with
    | zero => rfl
    | succ j' =>
      have h' : j' < (messageRowsLoop rs (i + 1)).length := by
        simpa [messageRowsLoop] using h
      have h2' : j' < rs.length := by simpa using h2
      have := ih (i + 1) j' h' h2'
      simp only [messageRowsLoop, List.get_cons_succ, this]
      congr 1
      omega

theorem take_get_eq {α : Type} :
    ∀ (l : List α) (n j : Nat) (h : j < (l.take n).length) (h2 : j < l.length),
      (l.take n).get ⟨j, h⟩ = l.get ⟨j, h2⟩ := by
  intro l
  induction l with
  | nil => intro n j h h2; simp at h2
  | cons x xs ih =>
    intro n j h h2
    cases n with
    | zero => simp at h
    | succ n' =>
      cases j with
      | zero => rfl
      | succ j' =>
        have h' : j' < (xs.take n').length := by simpa using h
        have h2' : j' < xs.length := by simpa using h2
        exact ih n' j' h' h2'

/-- C9: the Messages sheet has exactly min(total submissions, 50) data
rows, and row j renders the j-th submission in input order. -/
theorem C9_message_table_first50 :
    ∀ (fetch : String → Option VideoInfo) (blocked : List (String × String))
      (form_url : String) (rows : List InputRow),
      (messageTable (buildResults fetch blocked form_url rows)).length
        = min rows.length FIRST_GUARANTEED_COUNT
      ∧ ∀ (j : Nat)
          (h : j < (messageTable (buildResults fetch blocked form_url rows)).length)
          (h2 : j < (buildResults fetch blocked form_url rows).length),
          (messageTable (buildResults fetch blocked form_url rows)).get ⟨j, h⟩
            = mkMessageRow j ((buildResults fetch blocked form_url rows).get ⟨j, h2⟩) := by
  intro fetch blocked form_url rows
  have hlen : (buildResults fetch blocked form_url rows).length = rows.length := by
    simp [buildResults]
  constructor
  · simp only [messageTable, length_messageRowsLoop, List.length_take, hlen]
    omega
  · intro j h h2
    have htk : j < ((buildResults fetch blocked form_url rows).take
        FIRST_GUARANTEED_COUNT).length := by
      simpa [messageTable, length_messageRowsLoop] using h
    have hloop : j < (messageRowsLoop
        ((buildResults fetch blocked form_url rows).take FIRST_GUARANTEED_COUNT)
        0).length := by
      rw [length_messageRowsLoop]; exact htk
    have hstep := get_messageRowsLoop
      ((buildResults fetch blocked form_url rows).take FIRST_GUARANTEED_COUNT)
      0 j hloop htk
    rw [take_get_eq _ _ _ htk h2] at hstep
    simp only [Nat.zero_add] at hstep
    exact hstep

def sampleRow : InputRow :=
  { email := none, language := none, contact_pref := none, instagram := none,
    whatsapp := none, other_contact := none,
    yt_url1 := none, artist1 := none, title1 := none, start1 := none,
    end1 := none, note1 := none,
    yt_url2 := none, artist2 := none, title2 := none, start2 := none,
    end2 := none, note2 := none }

/-- Witness for C9 on a one-row batch. -/
theorem C9_message_table_first50_witness :
    (messageTable (buildResults (fun _ => none) [] FORM_URL [sampleRow])).length
      = min 1 FIRST_GUARANTEED_COUNT
    ∧ (messageTable (buildResults (fun _ => none) [] FORM_URL [sampleRow])).get
        ⟨0, by decide⟩
      = mkMessageRow 0
          ((buildResults (fun _ => none) [] FORM_URL [sampleRow]).get ⟨0, by decide⟩) := by
  constructor
  · exact (C9_message_table_first50 (fun _ => none) [] FORM_URL [sampleRow]).1
  · exact (C9_message_table_first50 (fun _ => none) [] FORM_URL [sampleRow]).2
      0 (by decide) (by decide)

/-! ## Lemmas about the Songlist sheet -/

theorem songRows1_data :
    ∀ (rs : List ResultRec) (k : Nat),
      (songRows1 rs k).map SongRow.toSongRowData
        = (rs.filter (fun r => truthyOpt r.url1)).map mkSongData1 := by
  intro rs
  induction rs with
  | nil => intro k; rfl
  | cons r rest ih =>
    intro k
    by_cases hr : truthyOpt r.url1
    · simp [songRows1, hr, List.filter_cons, ih]
    · simp [songRows1, hr, List.filter_cons, ih]

theorem songRows2_data :
    ∀ (rs : List ResultRec) (k : Nat),
      (songRows2 rs k).map SongRow.toSongRowData
        = (rs.filter (fun r => truthyOpt r.url2)).map mkSongData2 := by
  intro rs
  induction rs with
  | nil => intro k; rfl
  | cons r rest ih =>
    intro k
    by_cases hr : truthyOpt r.url2
    · simp [songRows2, hr, List.filter_cons, ih]
    · simp [songRows2, hr, List.filter_cons, ih]

theorem songRows1_seq :
    ∀ (rs : List ResultRec) (k : Nat),
      (songRows1 rs k).map SongRow.seq = List.range' k (songRows1 rs k).length := by
  intro rs
  induction rs with
  | nil => intro k; rfl
  | cons r rest ih =>
    intro k
    by_cases hr : truthyOpt r.url1
    · simp only [songRows1, if_pos hr, List.map_cons, List.length_cons, ih,
        List.range'_succ]
    · simp only [songRows1, if_neg hr, ih]

theorem songRows2_seq :
    ∀ (rs : List ResultRec) (k : Nat),
      (songRows2 rs k).map SongRow.seq = List.range' k (songRows2 rs k).length := by
  intro rs
  induction rs with
  | nil => intro k; rfl
  | cons r rest ih =>
    intro k
    by_cases hr : truthyOpt r.url2
    · simp only [songRows2, if_pos hr, List.map_cons, List.length_cons, ih,
        List.range'_succ]
    · simp only [songRows2, if_neg hr, ih]

theorem buildResults_truthy_url1 (fetch : String → Option VideoInfo)
    (blocked : List (String × String)) (form_url : String) (rows : List InputRow) :
    ∀ r ∈ buildResults fetch blocked form_url rows,
      truthyOpt r.url1 = r.url1.isSome := by
  intro r hr
  simp only [buildResults, List.mem_map] at hr
  obtain ⟨p, _, hp⟩ := hr
  subst hp
  exact truthy_validate_snd fetch p.2.yt_url1 p.2.artist1 p.2.title1
    p.2.start1 p.2.end1 blocked

theorem buildResults_truthy_url2 (fetch : String → Option VideoInfo)
    (blocked : List (String × String)) (form_url : String) (rows : List InputRow) :
    ∀ r ∈ buildResults fetch blocked form_url rows,
      truthyOpt r.url2 = r.url2.isSome := by
  intro r hr
  simp only [buildResults, List.mem_map] at hr
  obtain ⟨p, _, hp⟩ := hr
  subst hp
  show truthyOpt (buildResult fetch blocked form_url p.1 p.2).url2
    = (buildResult fetch blocked form_url p.1 p.2).url2.isSome
  by_cases h2 : truthyOpt p.2.yt_url2
  · simp only [buildResult, if_pos h2]
    exact truthy_validate_snd fetch p.2.yt_url2 p.2.artist2 p.2.title2
      p.2.start2 p.2.end2 blocked
  · simp only [buildResult, if_neg h2]
    rfl

/-- C2: every result with a present canonical URL contributes exactly one
Songlist row (rejected songs included, since the payload carries the error
field untouched): the payload column lists are exactly the primary rows in
input order followed by the secondary rows in input order, and the
sequence-number column is the running counter 1, 2, ... across the whole
table. -/
theorem C2_songlist_table_contract :
    ∀ (fetch : String → Option VideoInfo) (blocked : List (String × String))
      (form_url : String) (rows : List InputRow),
      ((songlistTable (buildResults fetch blocked form_url rows)).map
          SongRow.toSongRowData
        = ((buildResults fetch blocked form_url rows).filter
            (fun r => r.url1.isSome)).map mkSongData1
          ++ ((buildResults fetch blocked form_url rows).filter
            (fun r => r.url2.isSome)).map mkSongData2)
      ∧ (songlistTable (buildResults fetch blocked form_url rows)).map SongRow.seq
          = List.range' 1 (songlistTable (buildResults fetch blocked form_url rows)).length := by
  intro fetch blocked form_url rows
  have hc1 : ((buildResults fetch blocked form_url rows).filter
      (fun r => truthyOpt r.url1))
      = (buildResults fetch blocked form_url rows).filter (fun r => r.url1.isSome) :=
    List.filter_congr (fun r hr => by
      rw [buildResults_truthy_url1 fetch blocked form_url rows r hr])
  have hc2 : ((buildResults fetch blocked form_url rows).filter
      (fun r => truthyOpt r.url2))
      = (buildResults fetch blocked form_url rows).filter (fun r => r.url2.isSome) :=
    List.filter_congr (fun r hr => by
      rw [buildResults_truthy_url2 fetch blocked form_url rows r hr])
  constructor
  · simp only [songlistTable, List.map_append, songRows1_data, songRows2_data,
      hc1, hc2]
  · simp only [songlistTable, List.map_append, songRows1_seq, songRows2_seq,
      List.length_append]
    rw [List.range'_append_1, Nat.add_comm]

/-! ## Splitting lemmas for the idempotence analysis -/

theorem splitFirstOn_eq_none {c : Char} :
    ∀ {l : Str}, c ∉ l → splitFirstOn c l = none := by
  intro l
  induction l with
  | nil => intro _; rfl
  | cons x xs ih =>
    intro h
    have hx : x ≠ c := fun he => h (by simp [he])
    have hxs : c ∉ xs := fun hm => h (by simp [hm])
    simp [splitFirstOn, hx, ih hxs]

theorem splitFirstOn_append {c : Char} :
    ∀ {l1 : Str} (l2 : Str), c ∉ l1 →
      splitFirstOn c (l1 ++ c :: l2) = some (l1, l2) := by
  intro l1
  induction l1 with
  | nil => intro l2 _; simp [splitFirstOn]
  | cons x xs ih =>
    intro l2 h
    have hx : x ≠ c := fun he => h (by simp [he])
    have hxs : c ∉ xs := fun hm => h (by simp [hm])
    simp [splitFirstOn, hx, ih l2 hxs]

theorem splitFirstOn_some_spec {c : Char} :
    ∀ {l a b : Str}, splitFirstOn c l = some (a, b) → l = a ++ c :: b ∧ c ∉ a := by
  intro l
  induction l with
  | nil => intro a b h; simp [splitFirstOn] at h
  | cons x xs ih =>
    intro a b h
    by_cases hx : x = c
    · subst hx
      simp only [splitFirstOn, if_pos rfl] at h
      have h' := Option.some.inj h
      rw [Prod.mk.injEq] at h'
      obtain ⟨ha, hb⟩ := h'
      rw [← ha, ← hb]
      simp
    · simp only [splitFirstOn, if_neg hx] at h
      rcases hsp : splitFirstOn c xs with _ | p
      · rw [hsp] at h; simp at h
      · rw [hsp] at h
        have h' := Option.some.inj h
        rw [Prod.mk.injEq] at h'
        obtain ⟨ha, hb⟩ := h'
        obtain ⟨hl, hm⟩ := ih (show _ = some (p.1, p.2) by rw [hsp])
        constructor
        · rw [← ha, ← hb]
          simp only [List.cons_append, List.cons.injEq]
          exact ⟨trivial, hl⟩
        · rw [← ha]
          intro hmem
          rcases List.mem_cons.mp hmem with he | hm2
          · exact hx he.symm
          · exact hm hm2

theorem splitLastOn_build {c : Char} {l1 l2 : Str} (h : c ∉ l2) :
    splitLastOn c (l1 ++ c :: l2) = some (l1, l2) := by
  unfold splitLastOn
  have : (l1 ++ c :: l2).reverse = l2.reverse ++ c :: l1.reverse := by
    simp
  rw [this, splitFirstOn_append l1.reverse (by simpa using h)]
  simp

theorem splitLastOn_eq_none {c : Char} {l : Str} (h : c ∉ l) :
    splitLastOn c l = none := by
  unfold splitLastOn
  rw [splitFirstOn_eq_none (by simpa using h)]

theorem splitLastOn_some_spec {c : Char} {l a b : Str}
    (h : splitLastOn c l = some (a, b)) : l = a ++ c :: b ∧ c ∉ b := by
  unfold splitLastOn at h
  rcases hsp : splitFirstOn c l.reverse with _ | p
  · rw [hsp] at h; simp at h
  · rw [hsp] at h
    have h' := Option.some.inj h
    rw [Prod.mk.injEq] at h'
    obtain ⟨ha, hb⟩ := h'
    obtain ⟨hl, hm⟩ := splitFirstOn_some_spec (show _ = some (p.1, p.2) by rw [hsp])
    constructor
    · have hrev := congrArg List.reverse hl
      simp only [List.reverse_reverse, List.reverse_append, List.reverse_cons] at hrev
      rw [hrev, ← ha, ← hb]
      simp
    · rw [← hb]
      simpa using hm

theorem takeWhile_append_of_all {p : Char → Bool} :
    ∀ {l1 : Str} (l2 : Str), l1.all p →
      (l1 ++ l2).takeWhile p = l1 ++ l2.takeWhile p := by
  intro l1
  induction l1 with
  | nil => intro l2 _; rfl
  | cons x xs ih =>
    intro l2 h
    simp only [List.all_cons, Bool.and_eq_true] at h
    simp [List.takeWhile_cons, h.1, ih l2 h.2]

theorem dropWhile_append_of_all {p : Char → Bool} :
    ∀ {l1 : Str} (l2 : Str), l1.all p →
      (l1 ++ l2).dropWhile p = l2.dropWhile p := by
  intro l1
  induction l1 with
  | nil => intro l2 _; rfl
  | cons x xs ih =>
    intro l2 h
    simp only [List.all_cons, Bool.and_eq_true] at h
    simp [List.dropWhile_cons, h.1, ih l2 h.2]

theorem all_takeWhile {p : Char → Bool} :
    ∀ (l : Str), (l.takeWhile p).all p := by
  intro l
  induction l with
  | nil => rfl
  | cons x xs ih =>
    by_cases hx : p x
    · simp [List.takeWhile_cons, hx, ih]
    · simp [List.takeWhile_cons, hx]

/-- Splitting an append at the unique separator occurrence: if the left
factor and the prefix both avoid the separator, the decomposition aligns. -/
theorem append_eq_sep_decomp {x : Char} :
    ∀ (t d pth q' : Str), t ++ d = pth ++ x :: q' → x ∉ t → x ∉ pth →
      ∃ z, t ++ z = pth ∧ d = z ++ x :: q' := by
  intro t
  induction t with
  | nil =>
    intro d pth q' he _ _
    exact ⟨pth, rfl, by simpa using he⟩
  | cons a t' ih =>
    intro d pth q' he hxt hxp
    cases pth with
    | nil =>
      exfalso
      simp at he
      exact hxt (by simp [he.1])
    | cons p0 pth' =>
      simp only [List.cons_append, List.cons.injEq] at he
      obtain ⟨hap, hrest⟩ := he
      obtain ⟨z, hz1, hz2⟩ := ih d pth' q' hrest
        (fun hm => hxt (by simp [hm])) (fun hm => hxp (by simp [hm]))
      exact ⟨z, by simp [hap, hz1], hz2⟩

/-! ## Character classes of the percent encoder -/

theorem char_toNat_valid (c : Char) :
    c.toNat < 0xD800 ∨ (0xE000 ≤ c.toNat ∧ c.toNat < 0x110000) := c.valid

theorem hexVal_hexDigitUpper {d : Nat} (h : d < 16) :
    hexVal (hexDigitUpper d) = some d := by
  interval_cases d <;> decide

theorem alwaysSafe_hexDigitUpper (d : Nat) : alwaysSafe (hexDigitUpper d) = true := by
  by_cases h : d < 16
  · interval_cases d <;> decide
  · unfold hexDigitUpper
    rw [List.getD_eq_default]
    · decide
    · simp only [hexDigits, List.length]
      omega

theorem utf8Encode_lt_256 (c : Char) : ∀ b ∈ utf8Encode c, b < 256 := by
  intro b hb
  have hv : c.toNat < 0x110000 := by
    rcases char_toNat_valid c with h | ⟨_, h⟩ <;> omega
  unfold utf8Encode at hb
  simp only [] at hb
  split at hb
  · simp at hb; omega
  · split at hb
    · simp at hb
      rcases hb with h1 | h1 <;> omega
    · split at hb
      · simp at hb
        rcases hb with h1 | h1 | h1 <;> omega
      · simp at hb
        rcases hb with h1 | h1 | h1 | h1 <;> omega

theorem mem_percentByte {x : Char} {b : Nat} (h : x ∈ percentByte b) :
    x = '%' ∨ alwaysSafe x = true := by
  unfold percentByte at h
  rcases List.mem_cons.mp h with h1 | h2
  · left; exact h1
  · right
    rcases List.mem_cons.mp h2 with h3 | h4
    · rw [h3]; exact alwaysSafe_hexDigitUpper _
    · rw [List.mem_singleton.mp h4]; exact alwaysSafe_hexDigitUpper _

theorem quotePlusChar_class (c : Char) :
    ∀ x ∈ quotePlusChar c, alwaysSafe x = true ∨ x = '+' ∨ x = '%' := by
  intro x hx
  unfold quotePlusChar at hx
  split at hx
  · rename_i hs
    left
    rcases List.mem_singleton.mp hx with rfl
    exact hs
  · split at hx
    · right; left
      exact List.mem_singleton.mp hx
    · rcases List.mem_flatMap.mp hx with ⟨b, _, hb⟩
      rcases mem_percentByte hb with h | h
      · right; right; exact h
      · left; exact h

theorem quotePlusL_class (l : Str) :
    ∀ x ∈ quotePlusL l, alwaysSafe x = true ∨ x = '+' ∨ x = '%' := by
  intro x hx
  rcases List.mem_flatMap.mp hx with ⟨c, _, hc⟩
  exact quotePlusChar_class c x hc

theorem mem_joinChar {x : Char} {c : Char} :
    ∀ {segs : List Str}, x ∈ joinChar c segs → x = c ∨ ∃ s ∈ segs, x ∈ s := by
  intro segs
  induction segs with
  | nil => intro h; simp [joinChar] at h
  | cons s rest ih =>
    intro h
    cases rest with
    | nil =>
      right
      exact ⟨s, by simp, by simpa [joinChar] using h⟩
    | cons s2 rest2 =>
      have h' : x ∈ s ∨ x = c ∨ x ∈ joinChar c (s2 :: rest2) := by
        simpa [joinChar] using h
      rcases h' with h1 | h3 | h4
      · right; exact ⟨s, by simp, h1⟩
      · left; exact h3
      · rcases ih h4 with h5 | ⟨s3, hs3, hx3⟩
        · left; exact h5
        · right; exact ⟨s3, by simp [hs3], hx3⟩

theorem urlencodeL_class (d : List (Str × List Str)) :
    ∀ x ∈ urlencodeL d,
      alwaysSafe x = true ∨ x = '+' ∨ x = '%' ∨ x = '&' ∨ x = '=' := by
  intro x hx
  rcases mem_joinChar hx with h1 | ⟨s, hs, hxs⟩
  · right; right; right; left; exact h1
  · rcases List.mem_flatMap.mp hs with ⟨kv, _, hkv⟩
    rcases List.mem_map.mp hkv with ⟨v, _, hv⟩
    rw [← hv] at hxs
    rcases List.mem_append.mp hxs with h2 | h3
    · rcases quotePlusL_class kv.1 x h2 with h | h | h
      · left; exact h
      · right; left; exact h
      · right; right; left; exact h
    · rcases List.mem_cons.mp h3 with h4 | h5
      · right; right; right; right; exact h4
      · rcases quotePlusL_class v x h5 with h | h | h
        · left; exact h
        · right; left; exact h
        · right; right; left; exact h

/-- The re-encoded query avoids all URL structure characters. -/
theorem urlencodeL_no_special (d : List (Str × List Str)) (x : Char)
    (hx : alwaysSafe x = false) (h1 : x ≠ '+') (h2 : x ≠ '%') (h3 : x ≠ '&')
    (h4 : x ≠ '=') : x ∉ urlencodeL d := by
  intro hmem
  rcases urlencodeL_class d x hmem with h | h | h | h | h
  · rw [hx] at h; exact Bool.false_ne_true h
  · exact h1 h
  · exact h2 h
  · exact h3 h
  · exact h4 h

/-! ## Roundtrip of quote_plus and unquote_plus -/

/-- Per-character shape of the quoted string after the plus-to-space
substitution of unquote_plus (proof helper). -/
def sChar (c : Char) : Str :=
  if alwaysSafe c then [c]
  else if c = ' ' then [' ']
  else (utf8Encode c).flatMap percentByte

/-- Per-character token shape produced by unquoteTokens on quoted input
(proof helper). -/
def tokChar (c : Char) : List UqTok :=
  if alwaysSafe c then [.inr c]
  else if c = ' ' then [.inr ' ']
  else (utf8Encode c).map .inl

theorem safe_ne_plus {c : Char} (h : alwaysSafe c = true) : c ≠ '+' := by
  intro hc; subst hc; simp [alwaysSafe] at h

theorem safe_ne_percent {c : Char} (h : alwaysSafe c = true) : c ≠ '%' := by
  intro hc; subst hc; simp [alwaysSafe] at h

theorem map_plusToSpace_percentByte (b : Nat) :
    (percentByte b).map (fun c => if c = '+' then ' ' else c) = percentByte b := by
  unfold percentByte
  have h1 := safe_ne_plus (alwaysSafe_hexDigitUpper (b / 16))
  have h2 := safe_ne_plus (alwaysSafe_hexDigitUpper (b % 16))
  simp [h1, h2]

/-- After the plus-to-space substitution, the quoted string is the per-char
concatenation of sChar blocks. -/
theorem quotePlus_plusToSpace (l : Str) :
    (quotePlusL l).map (fun c => if c = '+' then ' ' else c) = l.flatMap sChar := by
  induction l with
  | nil => rfl
  | cons c cs ih =>
    show ((quotePlusChar c ++ quotePlusL cs).map _) = sChar c ++ cs.flatMap sChar
    rw [List.map_append, ih]
    congr 1
    by_cases hs : alwaysSafe c
    · simp [quotePlusChar, sChar, hs, safe_ne_plus hs]
    · by_cases hsp : c = ' '
      · subst hsp; decide
      · simp only [quotePlusChar, sChar, hs, hsp, Bool.false_eq_true, if_false,
          List.map_flatMap]
        exact List.flatMap_congr (fun b _ => map_plusToSpace_percentByte b)

/-- Tokenizing one percent-encoded byte block prepends the byte tokens. -/
theorem unquoteTokens_percent_block {rest : Str} :
    ∀ (bs : List Nat), (∀ b ∈ bs, b < 256) →
      unquoteTokens (bs.flatMap percentByte ++ rest)
        = bs.map Sum.inl ++ unquoteTokens rest := by
  intro bs
  induction bs with
  | nil => intro _; rfl
  | cons b bs' ih =>
    intro hlt
    have hb : b < 256 := hlt b (by simp)
    have hdiv : b / 16 < 16 := by omega
    have hmod : b % 16 < 16 := by omega
    have hbval : b / 16 * 16 + b % 16 = b := by omega
    show unquoteTokens ('%' :: hexDigitUpper (b / 16) :: hexDigitUpper (b % 16)
      :: (bs'.flatMap percentByte ++ rest)) = _
    simp [unquoteTokens, hexVal_hexDigitUpper hdiv, hexVal_hexDigitUpper hmod,
      hbval, ih (fun x hx => hlt x (by simp [hx]))]

theorem unquoteTokens_cons_ne {c : Char} (rest : Str) (hc : c ≠ '%') :
    unquoteTokens (c :: rest) = .inr c :: unquoteTokens rest := by
  rw [unquoteTokens.eq_def]
  simp [hc]

/-- Tokenizing the quoted form of one character prepends its tokens. -/
theorem unquoteTokens_sChar (c : Char) (rest : Str) :
    unquoteTokens (sChar c ++ rest) = tokChar c ++ unquoteTokens rest := by
  by_cases hs : alwaysSafe c
  · have hc : c ≠ '%' := safe_ne_percent hs
    simp only [sChar, tokChar, hs, if_true, List.cons_append, List.nil_append]
    exact unquoteTokens_cons_ne rest hc
  · by_cases hsp : c = ' '
    · subst hsp
      simp only [sChar, tokChar, Bool.false_eq_true, if_false,
        show alwaysSafe ' ' = false from rfl, if_pos rfl, List.cons_append,
        List.nil_append]
      exact unquoteTokens_cons_ne rest (by decide)
    · simp only [sChar, tokChar, hs, hsp, Bool.false_eq_true, if_false]
      exact unquoteTokens_percent_block (utf8Encode c) (utf8Encode_lt_256 c)

theorem decodeTokens_nil : decodeTokens [] = [] := by
  rw [decodeTokens.eq_def]

theorem decodeTokens_inr (c : Char) (ts : List UqTok) :
    decodeTokens (.inr c :: ts) = c :: decodeTokens ts := by
  rw [decodeTokens.eq_def]

theorem decodeTokens_ascii (b : Nat) (ts : List UqTok) (h : b < 0x80) :
    decodeTokens (.inl b :: ts) = Char.ofNat b :: decodeTokens ts := by
  rw [decodeTokens.eq_def]
  simp only [if_pos h]

theorem decodeTokens_two (b b1 : Nat) (ts : List UqTok) (h1 : ¬ b < 0x80)
    (h2 : 0xC2 ≤ b ∧ b ≤ 0xDF) (h3 : contOk b1 = true) :
    decodeTokens (.inl b :: .inl b1 :: ts)
      = Char.ofNat ((b - 0xC0) * 64 + (b1 - 0x80)) :: decodeTokens ts := by
  rw [decodeTokens.eq_def]
  simp only [if_neg h1, if_pos h2]
  simp [decode2, h3]

theorem decodeTokens_three (b b1 b2 : Nat) (ts : List UqTok) (h1 : ¬ b < 0x80)
    (h2 : ¬(0xC2 ≤ b ∧ b ≤ 0xDF)) (h3 : 0xE0 ≤ b ∧ b ≤ 0xEF)
    (h4 : cont1Ok3 b b1 = true) (h5 : contOk b2 = true) :
    decodeTokens (.inl b :: .inl b1 :: .inl b2 :: ts)
      = Char.ofNat ((b - 0xE0) * 4096 + (b1 - 0x80) * 64 + (b2 - 0x80))
        :: decodeTokens ts := by
  rw [decodeTokens.eq_def]
  simp only [if_neg h1, if_neg h2, if_pos h3]
  simp [decode3, h4, h5]

theorem decodeTokens_four (b b1 b2 b3 : Nat) (ts : List UqTok) (h1 : ¬ b < 0x80)
    (h2 : ¬(0xC2 ≤ b ∧ b ≤ 0xDF)) (h3 : ¬(0xE0 ≤ b ∧ b ≤ 0xEF))
    (h4 : 0xF0 ≤ b ∧ b ≤ 0xF4) (h5 : cont1Ok4 b b1 = true)
    (h6 : contOk b2 = true) (h7 : contOk b3 = true) :
    decodeTokens (.inl b :: .inl b1 :: .inl b2 :: .inl b3 :: ts)
      = Char.ofNat ((b - 0xF0) * 0x40000 + (b1 - 0x80) * 4096
          + (b2 - 0x80) * 64 + (b3 - 0x80)) :: decodeTokens ts := by
  rw [decodeTokens.eq_def]
  simp only [if_neg h1, if_neg h2, if_neg h3, if_pos h4]
  simp [decode4, h5, h6, h7]

/-- Decoding the UTF-8 byte tokens of one character yields that character. -/
theorem decodeTokens_utf8 (c : Char) (ts : List UqTok) :
    decodeTokens ((utf8Encode c).map Sum.inl ++ ts) = c :: decodeTokens ts := by
  have hval := char_toNat_valid c
  by_cases h1 : c.toNat < 0x80
  · have he : utf8Encode c = [c.toNat] := by simp [utf8Encode, h1]
    rw [he]
    simp only [List.map_cons, List.map_nil, List.cons_append, List.nil_append]
    rw [decodeTokens_ascii _ _ h1, Char.ofNat_toNat]
  · by_cases h2 : c.toNat < 0x800
    · have he : utf8Encode c = [0xC0 + c.toNat / 64, 0x80 + c.toNat % 64] := by
        simp [utf8Encode, h1, h2]
      rw [he]
      simp only [List.map_cons, List.map_nil, List.cons_append, List.nil_append]
      have hb1 : ¬(0xC0 + c.toNat / 64 < 0x80) := by omega
      have hb2 : 0xC2 ≤ 0xC0 + c.toNat / 64 ∧ 0xC0 + c.toNat / 64 ≤ 0xDF :=
        ⟨by omega, by omega⟩
      have hc1 : contOk (0x80 + c.toNat % 64) = true := by
        unfold contOk
        simp only [Bool.and_eq_true, decide_eq_true_eq]
        omega
      rw [decodeTokens_two _ _ _ hb1 hb2 hc1]
      have harg : (0xC0 + c.toNat / 64 - 0xC0) * 64 + (0x80 + c.toNat % 64 - 0x80)
          = c.toNat := by omega
      rw [harg, Char.ofNat_toNat]
    · by_cases h3 : c.toNat < 0x10000
      · have he : utf8Encode c = [0xE0 + c.toNat / 4096,
            0x80 + c.toNat / 64 % 64, 0x80 + c.toNat % 64] := by
          simp [utf8Encode, h1, h2, h3]
        rw [he]
        simp only [List.map_cons, List.map_nil, List.cons_append, List.nil_append]
        have hb1 : ¬(0xE0 + c.toNat / 4096 < 0x80) := by omega
        have hb2 : ¬(0xC2 ≤ 0xE0 + c.toNat / 4096
            ∧ 0xE0 + c.toNat / 4096 ≤ 0xDF) := by omega
        have hb3 : 0xE0 ≤ 0xE0 + c.toNat / 4096 ∧ 0xE0 + c.toNat / 4096 ≤ 0xEF :=
          ⟨by omega, by omega⟩
        have hc1 : cont1Ok3 (0xE0 + c.toNat / 4096) (0x80 + c.toNat / 64 % 64)
            = true := by
          unfold cont1Ok3 contOk
          split_ifs with hE0 hED
          · simp only [Bool.and_eq_true, decide_eq_true_eq]
            omega
          · simp only [Bool.and_eq_true, decide_eq_true_eq]
            rcases hval with hv | ⟨hv, _⟩ <;> omega
          · simp only [Bool.and_eq_true, decide_eq_true_eq]
            omega
        have hc2 : contOk (0x80 + c.toNat % 64) = true := by
          unfold contOk
          simp only [Bool.and_eq_true, decide_eq_true_eq]
          omega
        rw [decodeTokens_three _ _ _ _ hb1 hb2 hb3 hc1 hc2]
        have harg : (0xE0 + c.toNat / 4096 - 0xE0) * 4096
            + (0x80 + c.toNat / 64 % 64 - 0x80) * 64
            + (0x80 + c.toNat % 64 - 0x80) = c.toNat := by omega
        rw [harg, Char.ofNat_toNat]
      · have h4 : c.toNat < 0x110000 := by
          rcases hval with hv | ⟨_, hv⟩ <;> omega
        have he : utf8Encode c = [0xF0 + c.toNat / 0x40000,
            0x80 + c.toNat / 4096 % 64, 0x80 + c.toNat / 64 % 64,
            0x80 + c.toNat % 64] := by
          simp [utf8Encode, h1, h2, h3]
        rw [he]
        simp only [List.map_cons, List.map_nil, List.cons_append, List.nil_append]
        have hb1 : ¬(0xF0 + c.toNat / 0x40000 < 0x80) := by omega
        have hb2 : ¬(0xC2 ≤ 0xF0 + c.toNat / 0x40000
            ∧ 0xF0 + c.toNat / 0x40000 ≤ 0xDF) := by omega
        have hb3 : ¬(0xE0 ≤ 0xF0 + c.toNat / 0x40000
            ∧ 0xF0 + c.toNat / 0x40000 ≤ 0xEF) := by omega
        have hb4 : 0xF0 ≤ 0xF0 + c.toNat / 0x40000
            ∧ 0xF0 + c.toNat / 0x40000 ≤ 0xF4 := ⟨by omega, by omega⟩
        have hc1 : cont1Ok4 (0xF0 + c.toNat / 0x40000) (0x80 + c.toNat / 4096 % 64)
            = true := by
          unfold cont1Ok4 contOk
          split_ifs with hF0 hF4
          · simp only [Bool.and_eq_true, decide_eq_true_eq]
            omega
          · simp only [Bool.and_eq_true, decide_eq_true_eq]
            omega
          · simp only [Bool.and_eq_true, decide_eq_true_eq]
            omega
        have hc2 : contOk (0x80 + c.toNat / 64 % 64) = true := by
          unfold contOk
          simp only [Bool.and_eq_true, decide_eq_true_eq]
          omega
        have hc3 : contOk (0x80 + c.toNat % 64) = true := by
          unfold contOk
          simp only [Bool.and_eq_true, decide_eq_true_eq]
          omega
        rw [decodeTokens_four _ _ _ _ _ hb1 hb2 hb3 hb4 hc1 hc2 hc3]
        have harg : (0xF0 + c.toNat / 0x40000 - 0xF0) * 0x40000
            + (0x80 + c.toNat / 4096 % 64 - 0x80) * 4096
            + (0x80 + c.toNat / 64 % 64 - 0x80) * 64
            + (0x80 + c.toNat % 64 - 0x80) = c.toNat := by omega
        rw [harg, Char.ofNat_toNat]

/-- Decoding the tokens of one quoted character prepends that character. -/
theorem decodeTokens_tokChar (c : Char) (ts : List UqTok) :
    decodeTokens (tokChar c ++ ts) = c :: decodeTokens ts := by
  by_cases hs : alwaysSafe c
  · simp only [tokChar, hs, if_true, List.cons_append, List.nil_append]
    exact decodeTokens_inr c ts
  · by_cases hsp : c = ' '
    · subst hsp
      simp only [tokChar, show alwaysSafe ' ' = false from rfl,
        Bool.false_eq_true, if_false, if_pos rfl, List.cons_append,
        List.nil_append]
      exact decodeTokens_inr ' ' ts
    · simp only [tokChar, hs, hsp, Bool.false_eq_true, if_false]
      exact decodeTokens_utf8 c ts

/-- The central roundtrip: unquote_plus of quote_plus is the identity. -/
theorem unquotePlus_quotePlus (l : Str) : unquotePlusL (quotePlusL l) = l := by
  unfold unquotePlusL unquoteL
  rw [quotePlus_plusToSpace]
  induction l with
  | nil => exact decodeTokens_nil
  | cons c cs ih =>
    rw [List.flatMap_cons, unquoteTokens_sChar, decodeTokens_tokChar, ih]

/-! ## parse_qs of urlencode -/

theorem splitOnChar_not_mem {c : Char} :
    ∀ {l : Str}, c ∉ l → splitOnChar c l = [l] := by
  intro l
  induction l with
  | nil => intro _; rfl
  | cons x xs ih =>
    intro h
    have hx : x ≠ c := fun he => h (by simp [he])
    have hxs : c ∉ xs := fun hm => h (by simp [hm])
    rw [splitOnChar, if_neg hx, ih hxs]

theorem splitOnChar_append {c : Char} :
    ∀ {l1 : Str} (l2 : Str), c ∉ l1 →
      splitOnChar c (l1 ++ c :: l2) = l1 :: splitOnChar c l2 := by
  intro l1
  induction l1 with
  | nil => intro l2 _; simp [splitOnChar]
  | cons x xs ih =>
    intro l2 h
    have hx : x ≠ c := fun he => h (by simp [he])
    have hxs : c ∉ xs := fun hm => h (by simp [hm])
    rw [List.cons_append, splitOnChar, if_neg hx, ih l2 hxs]

theorem splitOnChar_joinChar {c : Char} :
    ∀ (segs : List Str), segs ≠ [] → (∀ s ∈ segs, c ∉ s) →
      splitOnChar c (joinChar c segs) = segs := by
  intro segs
  induction segs with
  | nil => intro h _; exact absurd rfl h
  | cons s rest ih =>
    intro _ hall
    cases rest with
    | nil =>
      show splitOnChar c s = [s]
      exact splitOnChar_not_mem (hall s (by simp))
    | cons s2 rest2 =>
      show splitOnChar c (s ++ c :: joinChar c (s2 :: rest2)) = _
      rw [splitOnChar_append _ (hall s (by simp)),
        ih (by simp) (fun x hx => hall x (by simp [hx]))]

theorem quotePlusChar_ne_nil (c : Char) : quotePlusChar c ≠ [] := by
  unfold quotePlusChar
  split
  · simp
  · split
    · simp
    · have h1 : utf8Encode c ≠ [] := by
        unfold utf8Encode
        by_cases ha : c.toNat < 128
        · simp [ha]
        · by_cases hb : c.toNat < 2048
          · simp [ha, hb]
          · by_cases hc2 : c.toNat < 65536
            · simp [ha, hb, hc2]
            · simp [ha, hb, hc2]
      intro h
      rcases he : utf8Encode c with _ | ⟨b, bs⟩
      · exact h1 he
      · rw [he] at h
        simp [percentByte] at h

theorem quotePlusL_ne_nil {l : Str} (h : l ≠ []) : quotePlusL l ≠ [] := by
  cases l with
  | nil => exact absurd rfl h
  | cons c cs =>
    show quotePlusChar c ++ quotePlusL cs ≠ []
    intro hc
    rcases List.append_eq_nil.mp hc with ⟨h1, _⟩
    exact quotePlusChar_ne_nil c h1

/-- The parse_qsl segment function recovers the pair from an encoded
key=value segment. -/
theorem segment_roundtrip (k v : Str) (hv : v ≠ []) :
    qsSegParse (quotePlusL k ++ '=' :: quotePlusL v) = some (k, v) := by
  unfold qsSegParse
  have hne : (quotePlusL k ++ '=' :: quotePlusL v : Str) ≠ [] := by
    simp
  rw [if_neg hne]
  have hkeq : '=' ∉ quotePlusL k := by
    intro hmem
    rcases quotePlusL_class k '=' hmem with h | h | h <;> simp [alwaysSafe] at h
  rw [splitFirstOn_append _ hkeq]
  show (if (quotePlusL v : Str) = [] then none
    else some (unquotePlusL (quotePlusL k), unquotePlusL (quotePlusL v)))
    = some (k, v)
  rw [if_neg (quotePlusL_ne_nil hv)]
  rw [unquotePlus_quotePlus, unquotePlus_quotePlus]

/-- Flattening a dict into its key-value pair sequence. -/
def flattenDict (d : List (Str × List Str)) : List (Str × Str) :=
  d.flatMap (fun kv => kv.2.map (fun v => (kv.1, v)))

theorem filterMap_eq_map_of_forall {α β : Type} (f : α → Option β) (g : α → β) :
    ∀ (l : List α), (∀ a ∈ l, f a = some (g a)) → l.filterMap f = l.map g := by
  intro l
  induction l with
  | nil => intro _; rfl
  | cons a as ih =>
    intro h
    rw [List.filterMap_cons, h a (by simp), List.map_cons,
      ih (fun x hx => h x (by simp [hx]))]

theorem filterMap_segments :
    ∀ (d : List (Str × List Str)), (∀ kv ∈ d, ∀ v ∈ kv.2, v ≠ []) →
      (d.flatMap (fun kv => kv.2.map
        (fun v => quotePlusL kv.1 ++ '=' :: quotePlusL v))).filterMap qsSegParse
        = flattenDict d := by
  intro d
  induction d with
  | nil => intro _; rfl
  | cons kv rest ih =>
    intro hstr
    rw [List.flatMap_cons, List.filterMap_append,
      ih (fun x hx => hstr x (by simp [hx]))]
    unfold flattenDict
    rw [List.flatMap_cons]
    congr 1
    rw [List.filterMap_map]
    apply filterMap_eq_map_of_forall
    intro v hv
    exact segment_roundtrip kv.1 v (hstr kv (by simp) v hv)

theorem parse_qsl_urlencode (d : List (Str × List Str))
    (hvals : ∀ kv ∈ d, kv.2 ≠ []) (hstr : ∀ kv ∈ d, ∀ v ∈ kv.2, v ≠ []) :
    parse_qslL (urlencodeL d) = flattenDict d := by
  rcases hd : d with _ | ⟨kv0, drest⟩
  · rfl
  · rw [← hd]
    unfold parse_qslL urlencodeL
    have hsegs_ne : d.flatMap
        (fun kv => kv.2.map (fun v => quotePlusL kv.1 ++ '=' :: quotePlusL v))
        ≠ [] := by
      rw [hd]
      have h0 : kv0.2 ≠ [] := hvals kv0 (by rw [hd]; simp)
      rcases hkv : kv0.2 with _ | ⟨v0, vrest⟩
      · exact absurd hkv h0
      · simp [hkv]
    have hsegs_amp : ∀ s ∈ d.flatMap
        (fun kv => kv.2.map (fun v => quotePlusL kv.1 ++ '=' :: quotePlusL v)),
        '&' ∉ s := by
      intro s hs hmem
      rcases List.mem_flatMap.mp hs with ⟨kv, _, hkv⟩
      rcases List.mem_map.mp hkv with ⟨v, _, hveq⟩
      rw [← hveq] at hmem
      rcases List.mem_append.mp hmem with h1 | h2
      · rcases quotePlusL_class kv.1 '&' h1 with h | h | h <;>
          simp [alwaysSafe] at h
      · rcases List.mem_cons.mp h2 with h3 | h4
        · simp at h3
        · rcases quotePlusL_class v '&' h4 with h | h | h <;>
            simp [alwaysSafe] at h
    rw [splitOnChar_joinChar _ hsegs_ne hsegs_amp]
    exact filterMap_segments d hstr

/-! ## Grouping properties of parse_qs -/

def keysOf (d : List (Str × List Str)) : List Str := d.map Prod.fst

theorem addPair_not_mem {k : Str} {v : Str} :
    ∀ {acc : List (Str × List Str)}, k ∉ keysOf acc →
      addPair acc (k, v) = acc ++ [(k, [v])] := by
  intro acc
  induction acc with
  | nil => intro _; rfl
  | cons e es ih =>
    intro h
    have he : e.1 ≠ k := fun heq => h (by simp [keysOf, heq])
    have hes : k ∉ keysOf es := fun hm => h (by simp [keysOf] at hm ⊢; right; exact hm)
    show (if e.1 = k then (e.1, e.2 ++ [v]) :: es else e :: addPair es (k, v)) = _
    rw [if_neg he, ih hes]
    rfl

theorem addPair_mid {k : Str} {v : Str} {u : List Str} :
    ∀ {pre : List (Str × List Str)} (post : List (Str × List Str)),
      k ∉ keysOf pre →
      addPair (pre ++ (k, u) :: post) (k, v) = pre ++ (k, u ++ [v]) :: post := by
  intro pre
  induction pre with
  | nil =>
    intro post _
    show (if k = k then (k, u ++ [v]) :: post else _) = _
    rw [if_pos rfl]
    rfl
  | cons e es ih =>
    intro post h
    have he : e.1 ≠ k := fun heq => h (by simp [keysOf, heq])
    have hes : k ∉ keysOf es := fun hm => h (by simp [keysOf] at hm ⊢; right; exact hm)
    show (if e.1 = k then _ else e :: addPair (es ++ (k, u) :: post) (k, v)) = _
    rw [if_neg he, ih post hes]
    rfl

theorem foldl_addPair_run {k : Str} :
    ∀ (vs : List Str) (pre post : List (Str × List Str)) (u : List Str),
      k ∉ keysOf pre →
      (vs.map (fun v => (k, v))).foldl addPair (pre ++ (k, u) :: post)
        = pre ++ (k, u ++ vs) :: post := by
  intro vs
  induction vs with
  | nil => intro pre post u _; simp
  | cons v vs' ih =>
    intro pre post u h
    rw [List.map_cons, List.foldl_cons, addPair_mid post h, ih pre post (u ++ [v]) h]
    simp

theorem foldl_addPair_flatten :
    ∀ (d acc : List (Str × List Str)), (keysOf d).Nodup →
      (∀ kv ∈ d, kv.2 ≠ []) → (∀ k ∈ keysOf d, k ∉ keysOf acc) →
      (flattenDict d).foldl addPair acc = acc ++ d := by
  intro d
  induction d with
  | nil => intro acc _ _ _; simp [flattenDict]
  | cons kv rest ih =>
    intro acc hnd hvals hdisj
    have hk_acc : kv.1 ∉ keysOf acc := hdisj kv.1 (by simp [keysOf])
    rcases hvs : kv.2 with _ | ⟨v0, vs'⟩
    · exact absurd hvs (hvals kv (by simp))
    · unfold flattenDict
      rw [List.flatMap_cons, List.foldl_append, hvs, List.map_cons,
        List.foldl_cons, addPair_not_mem hk_acc]
      have hmid : acc ++ [(kv.1, [v0])] = acc ++ (kv.1, [v0]) :: [] := by simp
      rw [hmid, foldl_addPair_run vs' acc [] [v0] hk_acc]
      have hrun : acc ++ (kv.1, [v0] ++ vs') :: [] = acc ++ [(kv.1, kv.2)] := by
        simp [hvs]
      rw [hrun]
      have hnd_cons : (kv.1 :: keysOf rest).Nodup := by simpa [keysOf] using hnd
      have hne : kv.1 ∉ keysOf rest := (List.nodup_cons.mp hnd_cons).1
      have hnd' : (keysOf rest).Nodup := (List.nodup_cons.mp hnd_cons).2
      have hdisj' : ∀ k ∈ keysOf rest, k ∉ keysOf (acc ++ [(kv.1, kv.2)]) := by
        intro k hkrest
        simp only [keysOf, List.map_append, List.mem_append] at *
        rintro (h1 | h2)
        · exact hdisj k (by simp [keysOf] at hkrest ⊢; right; exact hkrest) h1
        · simp at h2
          rw [h2] at hkrest
          exact hne (by simpa [keysOf] using hkrest)
      have := ih (acc ++ [(kv.1, kv.2)]) hnd'
        (fun x hx => hvals x (by simp [hx])) hdisj'
      unfold flattenDict at this
      rw [this]
      simp

theorem unquoteTokens_cons_ne_nil (c : Char) (rest : Str) :
    unquoteTokens (c :: rest) ≠ [] := by
  rw [unquoteTokens.eq_def]
  by_cases hc : c = '%'
  · simp only [hc, if_pos rfl]
    rcases rest with _ | ⟨h1, rest1⟩
    · simp
    · rcases rest1 with _ | ⟨h2, rest2⟩
      · simp
      · rcases hx : hexVal h1 with _ | a <;> rcases hy : hexVal h2 with _ | b <;>
          simp [hx, hy]
  · simp [hc]

theorem decode2_ne_nil {b : Nat} {ts : List UqTok} {r1 r2 : Str} :
    decode2 b ts r1 r2 ≠ [] := by
  unfold decode2
  rcases ts with _ | ⟨t, ts'⟩
  · simp
  · rcases t with b1 | c1
    · by_cases h : contOk b1 <;> simp [h]
    · simp

theorem decode3_ne_nil {b : Nat} {ts : List UqTok} {r1 r2 r3 : Str} :
    decode3 b ts r1 r2 r3 ≠ [] := by
  unfold decode3
  rcases ts with _ | ⟨t, ts'⟩
  · simp
  · rcases t with b1 | c1
    · by_cases h : cont1Ok3 b b1
      · simp only [h, if_true]
        rcases ts' with _ | ⟨t2, ts2⟩
        · simp
        · rcases t2 with b2 | c2
          · by_cases h2 : contOk b2 <;> simp [h2]
          · simp
      · simp [h]
    · simp

theorem decode4_ne_nil {b : Nat} {ts : List UqTok} {r1 r2 r3 r4 : Str} :
    decode4 b ts r1 r2 r3 r4 ≠ [] := by
  unfold decode4
  rcases ts with _ | ⟨t, ts'⟩
  · simp
  · rcases t with b1 | c1
    · by_cases h : cont1Ok4 b b1
      · simp only [h, if_true]
        rcases ts' with _ | ⟨t2, ts2⟩
        · simp
        · rcases t2 with b2 | c2
          · by_cases h2 : contOk b2
            · simp only [h2, if_true]
              rcases ts2 with _ | ⟨t3, ts3⟩
              · simp
              · rcases t3 with b3 | c3
                · by_cases h3 : contOk b3 <;> simp [h3]
                · simp
            · simp [h2]
          · simp
      · simp [h]
    · simp

theorem decodeTokens_cons_ne_nil (t : UqTok) (ts : List UqTok) :
    decodeTokens (t :: ts) ≠ [] := by
  rcases t with b | c
  · rw [decodeTokens.eq_def]
    by_cases h1 : b < 0x80
    · simp [h1]
    · by_cases h2 : 0xC2 ≤ b ∧ b ≤ 0xDF
      · simp only [h1, h2, if_false, if_true]
        exact decode2_ne_nil
      · by_cases h3 : 0xE0 ≤ b ∧ b ≤ 0xEF
        · simp only [h1, h2, h3, if_false, if_true]
          exact decode3_ne_nil
        · by_cases h4 : 0xF0 ≤ b ∧ b ≤ 0xF4
          · simp only [h1, h2, h3, h4, if_false, if_true]
            exact decode4_ne_nil
          · simp [h1, h2, h3, h4]
  · rw [decodeTokens_inr]
    simp

theorem unquotePlusL_ne_nil {w : Str} (h : w ≠ []) : unquotePlusL w ≠ [] := by
  unfold unquotePlusL unquoteL
  rcases w with _ | ⟨c, cs⟩
  · exact absurd rfl h
  · rw [List.map_cons]
    rcases ht : unquoteTokens ((if c = '+' then ' ' else c) :: cs.map _) with _ | ⟨t, ts⟩
    · exact absurd ht (unquoteTokens_cons_ne_nil _ _)
    · exact decodeTokens_cons_ne_nil t ts

theorem qsSegParse_val_ne_nil {seg : Str} {p : Str × Str}
    (h : qsSegParse seg = some p) : p.2 ≠ [] := by
  unfold qsSegParse at h
  split at h
  · simp at h
  · rcases hsp : splitFirstOn '=' seg with _ | ⟨n, v⟩
    · rw [hsp] at h; simp at h
    · rw [hsp] at h
      have h' : (if v = [] then none
          else some (unquotePlusL n, unquotePlusL v)) = some p := h
      by_cases hv : v = []
      · rw [if_pos hv] at h'; simp at h'
      · rw [if_neg hv] at h'
        have := Option.some.inj h'
        rw [← this]
        exact unquotePlusL_ne_nil hv

theorem parse_qslL_val_ne_nil (qs : Str) :
    ∀ p ∈ parse_qslL qs, p.2 ≠ [] := by
  intro p hp
  rcases List.mem_filterMap.mp hp with ⟨seg, _, hseg⟩
  exact qsSegParse_val_ne_nil hseg

theorem keysOf_addPair (acc : List (Str × List Str)) (kv : Str × Str) :
    keysOf (addPair acc kv)
      = if kv.1 ∈ keysOf acc then keysOf acc else keysOf acc ++ [kv.1] := by
  induction acc with
  | nil => simp [addPair, keysOf]
  | cons e es ih =>
    by_cases he : e.1 = kv.1
    · show keysOf (if e.1 = kv.1 then (e.1, e.2 ++ [kv.2]) :: es else _) = _
      rw [if_pos he]
      have hm : kv.1 ∈ keysOf (e :: es) := by
        show kv.1 ∈ e.1 :: keysOf es
        exact List.mem_cons.mpr (Or.inl he.symm)
      rw [if_pos hm]
      simp [keysOf]
    · show keysOf (if e.1 = kv.1 then _ else e :: addPair es kv) = _
      rw [if_neg he]
      have hiff : kv.1 ∈ keysOf (e :: es) ↔ kv.1 ∈ keysOf es := by
        constructor
        · intro hm
          rcases List.mem_cons.mp (show kv.1 ∈ e.1 :: keysOf es from hm) with h1 | h2
          · exact absurd h1.symm he
          · exact h2
        · intro hm
          show kv.1 ∈ e.1 :: keysOf es
          exact List.mem_cons.mpr (Or.inr hm)
      show e.1 :: keysOf (addPair es kv) = _
      rw [ih]
      by_cases hm : kv.1 ∈ keysOf es
      · rw [if_pos hm, if_pos (hiff.mpr hm)]
        rfl
      · rw [if_neg hm, if_neg (fun hx => hm (hiff.mp hx))]
        rfl

theorem nodup_append_singleton {l : List Str} {x : Str}
    (hnd : l.Nodup) (hx : x ∉ l) : (l ++ [x]).Nodup := by
  rw [List.nodup_append]
  exact ⟨hnd, List.nodup_singleton x, by
    intro a ha hax
    simp at hax
    rw [hax] at ha
    exact hx ha⟩

theorem nodup_keys_foldl_addPair :
    ∀ (l : List (Str × Str)) (acc : List (Str × List Str)),
      (keysOf acc).Nodup → (keysOf (l.foldl addPair acc)).Nodup := by
  intro l
  induction l with
  | nil => intro acc h; exact h
  | cons kv rest ih =>
    intro acc h
    rw [List.foldl_cons]
    apply ih
    rw [keysOf_addPair]
    by_cases hm : kv.1 ∈ keysOf acc
    · rw [if_pos hm]; exact h
    · rw [if_neg hm]; exact nodup_append_singleton h hm

theorem mem_addPair_prop (P : Str × List Str → Prop)
    (hP : ∀ k u v, P (k, u) → P (k, u ++ [v]))
    (hP0 : ∀ k v, P (k, [v])) :
    ∀ (acc : List (Str × List Str)) (kv : Str × Str),
      (∀ e ∈ acc, P e) → ∀ e ∈ addPair acc kv, P e := by
  intro acc
  induction acc with
  | nil =>
    intro kv _ e he
    rcases List.mem_singleton.mp he with rfl
    exact hP0 kv.1 kv.2
  | cons e0 es ih =>
    intro kv hall e he
    by_cases h0 : e0.1 = kv.1
    · rw [show addPair (e0 :: es) kv
        = (e0.1, e0.2 ++ [kv.2]) :: es from by simp [addPair, h0]] at he
      rcases List.mem_cons.mp he with h1 | h2
      · rw [h1]
        exact hP e0.1 e0.2 kv.2 (by
          have := hall e0 (by simp)
          exact this)
      · exact hall e (by simp [h2])
    · rw [show addPair (e0 :: es) kv = e0 :: addPair es kv from by
        simp [addPair, h0]] at he
      rcases List.mem_cons.mp he with h1 | h2
      · rw [h1]; exact hall e0 (by simp)
      · exact ih kv (fun x hx => hall x (by simp [hx])) e h2

theorem foldl_addPair_prop (P : Str × List Str → Prop)
    (hP : ∀ k u v, P (k, u) → P (k, u ++ [v]))
    (hP0 : ∀ k v, P (k, [v])) :
    ∀ (l : List (Str × Str)) (acc : List (Str × List Str)),
      (∀ e ∈ acc, P e) → ∀ e ∈ l.foldl addPair acc, P e := by
  intro l
  induction l with
  | nil => intro acc h; exact h
  | cons kv rest ih =>
    intro acc h
    rw [List.foldl_cons]
    exact ih (addPair acc kv) (mem_addPair_prop P hP hP0 acc kv h)

/-- The dict that parse_qs returns has pairwise-distinct keys and nonempty
value lists. -/
theorem parse_qsL_nodup_and_vals (qs : Str) :
    (keysOf (parse_qsL qs)).Nodup ∧ (∀ e ∈ parse_qsL qs, e.2 ≠ []) := by
  constructor
  · exact nodup_keys_foldl_addPair (parse_qslL qs) [] (by simp [keysOf])
  · exact foldl_addPair_prop (fun e => e.2 ≠ [])
      (fun k u v _ => by simp)
      (fun k v => by simp)
      (parse_qslL qs) [] (by simp)

theorem mem_addPair_valstr :
    ∀ (acc : List (Str × List Str)) (kv : Str × Str), kv.2 ≠ [] →
      (∀ e ∈ acc, ∀ v ∈ e.2, v ≠ []) →
      ∀ e ∈ addPair acc kv, ∀ v ∈ e.2, v ≠ [] := by
  intro acc
  induction acc with
  | nil =>
    intro kv hkv _ e he v hv
    rcases List.mem_singleton.mp he with rfl
    rcases List.mem_singleton.mp hv with rfl
    exact hkv
  | cons e0 es ih =>
    intro kv hkv hall e he v hv
    by_cases h0 : e0.1 = kv.1
    · rw [show addPair (e0 :: es) kv
        = (e0.1, e0.2 ++ [kv.2]) :: es from by simp [addPair, h0]] at he
      rcases List.mem_cons.mp he with h1 | h2
      · rw [h1] at hv
        rcases List.mem_append.mp hv with hv1 | hv2
        · exact hall e0 (by simp) v hv1
        · rw [List.mem_singleton.mp hv2]
          exact hkv
      · exact hall e (by simp [h2]) v hv
    · rw [show addPair (e0 :: es) kv = e0 :: addPair es kv from by
        simp [addPair, h0]] at he
      rcases List.mem_cons.mp he with h1 | h2
      · rw [h1] at hv; exact hall e0 (by simp) v hv
      · exact ih kv hkv (fun x hx => hall x (by simp [hx])) e h2 v hv

theorem foldl_addPair_valstr :
    ∀ (l : List (Str × Str)), (∀ p ∈ l, p.2 ≠ []) →
      ∀ (acc : List (Str × List Str)), (∀ e ∈ acc, ∀ v ∈ e.2, v ≠ []) →
      ∀ e ∈ l.foldl addPair acc, ∀ v ∈ e.2, v ≠ [] := by
  intro l
  induction l with
  | nil => intro _ acc h; exact h
  | cons kv rest ih =>
    intro hl acc h
    rw [List.foldl_cons]
    exact ih (fun p hp => hl p (by simp [hp])) (addPair acc kv)
      (mem_addPair_valstr acc kv (hl kv (by simp)) h)

/-- Every value string inside the parse_qs dict is nonempty (blank values
are dropped by parse_qsl). -/
theorem parse_qsL_valstrings (qs : Str) :
    ∀ e ∈ parse_qsL qs, ∀ v ∈ e.2, v ≠ [] :=
  foldl_addPair_valstr (parse_qslL qs) (parse_qslL_val_ne_nil qs) [] (by simp)

/-- Parsing the re-encoded, already-filtered query dict returns it
unchanged, and filtering it again is the identity. -/
theorem query_roundtrip (q0 : Str) :
    parse_qsL (urlencodeL ((parse_qsL q0).filter
        (fun kv => !(params_to_remove.contains kv.1))))
      = (parse_qsL q0).filter (fun kv => !(params_to_remove.contains kv.1))
    ∧ (parse_qsL (urlencodeL ((parse_qsL q0).filter
        (fun kv => !(params_to_remove.contains kv.1))))).filter
          (fun kv => !(params_to_remove.contains kv.1))
      = (parse_qsL q0).filter (fun kv => !(params_to_remove.contains kv.1)) := by
  have hvals : ∀ e ∈ (parse_qsL q0).filter
      (fun kv => !(params_to_remove.contains kv.1)), e.2 ≠ [] := by
    intro e he
    exact (parse_qsL_nodup_and_vals q0).2 e (List.mem_of_mem_filter he)
  have hstr : ∀ e ∈ (parse_qsL q0).filter
      (fun kv => !(params_to_remove.contains kv.1)), ∀ v ∈ e.2, v ≠ [] := by
    intro e he
    exact parse_qsL_valstrings q0 e (List.mem_of_mem_filter he)
  have hnd : (keysOf ((parse_qsL q0).filter
      (fun kv => !(params_to_remove.contains kv.1)))).Nodup := by
    apply List.Nodup.sublist
      (List.Sublist.map Prod.fst (List.filter_sublist (parse_qsL q0)))
    exact (parse_qsL_nodup_and_vals q0).1
  have heq : parse_qsL (urlencodeL ((parse_qsL q0).filter
      (fun kv => !(params_to_remove.contains kv.1))))
      = (parse_qsL q0).filter (fun kv => !(params_to_remove.contains kv.1)) := by
    show (parse_qslL (urlencodeL _)).foldl addPair [] = _
    rw [parse_qsl_urlencode _ hvals hstr]
    rw [foldl_addPair_flatten _ [] hnd hvals (by simp [keysOf])]
    simp
  refine ⟨heq, ?_⟩
  rw [heq]
  apply List.filter_eq_self.mpr
  intro e he
  exact (List.mem_filter.mp he).2

/-! ## Structure of the urlparse components -/

theorem splitFirstOn_none_not_mem {c : Char} :
    ∀ {l : Str}, splitFirstOn c l = none → c ∉ l := by
  intro l
  induction l with
  | nil => intro _ h; simp at h
  | cons x xs ih =>
    intro h hmem
    by_cases hx : x = c
    · simp [splitFirstOn, hx] at h
    · simp only [splitFirstOn, if_neg hx] at h
      rcases hsp : splitFirstOn c xs with _ | p
      · rcases List.mem_cons.mp hmem with h1 | h2
        · exact hx h1.symm
        · exact ih hsp h2
      · rw [hsp] at h; simp at h

theorem splitParams_eq_some {p before after : Str}
    (h : splitLastOn '/' p = some (before, after)) :
    splitParams p
      = (match splitFirstOn ';' after with
         | some (a, ps) => (before ++ '/' :: a, ps)
         | none => (before ++ '/' :: after, [])) := by
  unfold splitParams
  rw [h]

theorem splitParams_eq_none {p : Str} (h : splitLastOn '/' p = none) :
    splitParams p
      = (match splitFirstOn ';' p with
         | some (a, ps) => (a, ps)
         | none => (p, [])) := by
  unfold splitParams
  rw [h]

/-- Which characters the path may keep: every character of the
splitParams output occurs in the input. -/
theorem splitParams_mem {p : Str} :
    ∀ x ∈ (splitParams p).1, x ∈ p := by
  intro x hx
  rcases hsl : splitLastOn '/' p with _ | ⟨before, after⟩
  · rw [splitParams_eq_none hsl] at hx
    rcases hsf : splitFirstOn ';' p with _ | ⟨a, ps⟩
    · rw [hsf] at hx; exact hx
    · rw [hsf] at hx
      have hx2 : x ∈ a := hx
      obtain ⟨hpeq, _⟩ := splitFirstOn_some_spec hsf
      rw [hpeq]
      simp only [List.mem_append]
      left; exact hx2
  · rw [splitParams_eq_some hsl] at hx
    obtain ⟨hpeq, hnafter⟩ := splitLastOn_some_spec hsl
    rcases hsf : splitFirstOn ';' after with _ | ⟨a, ps⟩
    · rw [hsf] at hx
      have hx2 : x ∈ before ++ '/' :: after := hx
      rw [hpeq]; exact hx2
    · rw [hsf] at hx
      have hx2 : x ∈ before ++ '/' :: a := hx
      obtain ⟨haeq, _⟩ := splitFirstOn_some_spec hsf
      rw [hpeq, haeq]
      rcases List.mem_append.mp hx2 with h1 | h2
      · simp [h1]
      · rcases List.mem_cons.mp h2 with h3 | h4
        · simp [h3]
        · simp [h4]

/-- Shape of a path after parameter splitting: either it ends in a
slash-headed final segment free of slashes and semicolons, or it has no
slash and no semicolon at all. -/
def PathParam (p : Str) : Prop :=
  (∃ b t, p = b ++ '/' :: t ∧ '/' ∉ t ∧ ';' ∉ t) ∨ ('/' ∉ p ∧ ';' ∉ p)

theorem splitLastOn_none_not_mem {c : Char} {l : Str}
    (h : splitLastOn c l = none) : c ∉ l := by
  unfold splitLastOn at h
  rcases hsp : splitFirstOn c l.reverse with _ | p
  · intro hm
    exact splitFirstOn_none_not_mem hsp (by simpa using hm)
  · rw [hsp] at h; simp at h

theorem splitParams_pathParam (p : Str) : PathParam (splitParams p).1 := by
  rcases hsl : splitLastOn '/' p with _ | ⟨before, after⟩
  · rw [splitParams_eq_none hsl]
    have hns : '/' ∉ p := splitLastOn_none_not_mem hsl
    rcases hsf : splitFirstOn ';' p with _ | ⟨a, ps⟩
    · show PathParam p
      right
      exact ⟨hns, splitFirstOn_none_not_mem hsf⟩
    · obtain ⟨hpeq, hna⟩ := splitFirstOn_some_spec hsf
      show PathParam a
      right
      refine ⟨?_, hna⟩
      intro hmem
      exact hns (by rw [hpeq]; simp only [List.mem_append]; left; exact hmem)
  · rw [splitParams_eq_some hsl]
    obtain ⟨hpeq, hnafter⟩ := splitLastOn_some_spec hsl
    rcases hsf : splitFirstOn ';' after with _ | ⟨a, ps⟩
    · show PathParam (before ++ '/' :: after)
      left
      exact ⟨before, after, rfl, hnafter, splitFirstOn_none_not_mem hsf⟩
    · obtain ⟨haeq, hna⟩ := splitFirstOn_some_spec hsf
      show PathParam (before ++ '/' :: a)
      left
      refine ⟨before, a, rfl, ?_, hna⟩
      intro hmem
      exact hnafter (by rw [haeq]; simp only [List.mem_append]; left; exact hmem)

theorem PathParam_tail {c : Char} {rest : Str}
    (h : PathParam (c :: rest)) : PathParam rest := by
  rcases h with ⟨b, t, heq, hns, hnsemi⟩ | ⟨hns, hnsemi⟩
  · cases b with
    | nil =>
      simp only [List.nil_append, List.cons.injEq] at heq
      right
      rw [heq.2]
      exact ⟨hns, hnsemi⟩
    | cons b0 bs =>
      simp only [List.cons_append, List.cons.injEq] at heq
      left
      exact ⟨bs, t, heq.2, hns, hnsemi⟩
  · right
    exact ⟨fun hm => hns (by simp [hm]), fun hm => hnsemi (by simp [hm])⟩

theorem PathParam_suffix :
    ∀ (t p z : Str), p = t ++ z → PathParam p → PathParam z := by
  intro t
  induction t with
  | nil =>
    intro p z h hp
    rw [h] at hp
    simpa using hp
  | cons a t' ih =>
    intro p z h hp
    rw [h] at hp
    exact ih (t' ++ z) z rfl (PathParam_tail hp)

/-- On a parameter-free path splitParams is the identity. -/
theorem splitParams_of_pathParam {z : Str} (h : PathParam z) :
    splitParams z = (z, []) := by
  rcases h with ⟨b, t, heq, hns, hnsemi⟩ | ⟨hns, hnsemi⟩
  · rw [heq]
    rw [splitParams_eq_some (splitLastOn_build hns)]
    rw [splitFirstOn_eq_none hnsemi]
  · rw [splitParams_eq_none (splitLastOn_eq_none hns)]
    rw [splitFirstOn_eq_none hnsemi]

/-! Scheme facts. -/

theorem lowerChar_schemeChar {c : Char} (h : schemeChar c = true) :
    schemeChar (lowerChar c) = true := by
  by_cases h1 : 65 ≤ c.toNat ∧ c.toNat ≤ 90
  · have hl : lowerChar c = Char.ofNat (c.toNat + 32) := by
      unfold lowerChar; rw [if_pos h1]
    rw [hl]
    unfold schemeChar isAsciiAlpha
    simp only [Bool.or_eq_true, Bool.and_eq_true, decide_eq_true_eq]
    have hv : (Char.ofNat (c.toNat + 32)).toNat = c.toNat + 32 :=
      toNat_ofNat_of_lt (by omega)
    rw [hv]
    left; left; left; left; right
    omega
  · have hlt : c.toNat < 192 := by
      unfold schemeChar isAsciiAlpha at h
      simp only [Bool.or_eq_true, Bool.and_eq_true, decide_eq_true_eq] at h
      rcases h with ((((h | h) | h) | h) | h) | h
      · omega
      · omega
      · omega
      · rw [h]; decide
      · rw [h]; decide
      · rw [h]; decide
    have hl : lowerChar c = c := by
      unfold lowerChar; rw [if_neg h1, if_neg (by omega)]
    rw [hl]; exact h

theorem lowerChar_alpha {c : Char} (h : isAsciiAlpha c = true) :
    isAsciiAlpha (lowerChar c) = true := by
  by_cases h1 : 65 ≤ c.toNat ∧ c.toNat ≤ 90
  · have hl : lowerChar c = Char.ofNat (c.toNat + 32) := by
      unfold lowerChar; rw [if_pos h1]
    rw [hl]
    unfold isAsciiAlpha
    simp only [Bool.or_eq_true, Bool.and_eq_true, decide_eq_true_eq]
    have hv : (Char.ofNat (c.toNat + 32)).toNat = c.toNat + 32 :=
      toNat_ofNat_of_lt (by omega)
    rw [hv]
    right; omega
  · have h2 : c.toNat < 192 := by
      unfold isAsciiAlpha at h
      simp only [Bool.or_eq_true, Bool.and_eq_true, decide_eq_true_eq] at h
      omega
    have hl : lowerChar c = c := by
      unfold lowerChar; rw [if_neg h1, if_neg (by omega)]
    rw [hl]; exact h

theorem schemeChar_not_special {c : Char} (h : schemeChar c = true) :
    c ≠ ':' ∧ c ≠ '/' ∧ c ≠ '?' ∧ c ≠ '#' := by
  refine ⟨?_, ?_, ?_, ?_⟩ <;>
    (intro heq; rw [heq] at h; simp [schemeChar, isAsciiAlpha] at h)

theorem schemeSplit_eq_some {l pre post : Str}
    (h : splitFirstOn ':' l = some (pre, post)) :
    schemeSplit l
      = if pre ≠ [] ∧ isAsciiAlpha (pre.headD ' ') = true ∧ pre.all schemeChar
        then (pre.map lowerChar, post) else ([], l) := by
  unfold schemeSplit
  rw [h]

/-- The scheme that schemeSplit returns is either empty or a validated,
lowercase scheme that splits off the input. -/
theorem schemeSplit_spec (l : Str) :
    schemeSplit l = ([], l)
    ∨ (∃ pre rest, l = pre ++ ':' :: rest
        ∧ schemeSplit l = (pre.map lowerChar, rest)
        ∧ pre ≠ [] ∧ pre.all schemeChar = true
        ∧ isAsciiAlpha (pre.headD ' ') = true) := by
  rcases hsp : splitFirstOn ':' l with _ | ⟨pre, post⟩
  · left
    unfold schemeSplit
    rw [hsp]
  · by_cases hcond : pre ≠ [] ∧ isAsciiAlpha (pre.headD ' ') = true
        ∧ pre.all schemeChar
    · right
      obtain ⟨hleq, _⟩ := splitFirstOn_some_spec hsp
      exact ⟨pre, post, hleq, by rw [schemeSplit_eq_some hsp, if_pos hcond],
        hcond.1, hcond.2.2, hcond.2.1⟩
    · left
      rw [schemeSplit_eq_some hsp, if_neg hcond]

/-! Netloc facts. -/

theorem netlocSplit_fst_all (l : Str) :
    (netlocSplit l).1.all (fun c => !netlocStop c) = true := by
  unfold netlocSplit
  split
  · exact all_takeWhile _
  · rfl

theorem takeWhile_nil_of_head {p : Char → Bool} {l : Str}
    (h : ∀ c, l.head? = some c → p c = false) :
    l.takeWhile p = [] ∧ l.dropWhile p = l := by
  cases l with
  | nil => exact ⟨rfl, rfl⟩
  | cons a as =>
    have ha := h a rfl
    refine ⟨?_, ?_⟩ <;> simp [List.takeWhile_cons, List.dropWhile_cons, ha]

theorem head_dropWhile_false {p : Char → Bool} :
    ∀ {l : Str} {c : Char}, (l.dropWhile p).head? = some c → p c = false := by
  intro l
  induction l with
  | nil => intro c h; simp [List.dropWhile] at h
  | cons a as ih =>
    intro c h
    by_cases ha : p a = true
    · rw [List.dropWhile_cons, if_pos ha] at h
      exact ih h
    · rw [List.dropWhile_cons, if_neg ha] at h
      have hac : a = c := by simpa using h
      rw [← hac, Bool.eq_false_iff]
      exact ha

theorem mem_of_mem_dropWhile {p : Char → Bool} :
    ∀ {l : Str} {x : Char}, x ∈ l.dropWhile p → x ∈ l := by
  intro l
  induction l with
  | nil => intro x h; exact h
  | cons a as ih =>
    intro x h
    by_cases ha : p a = true
    · rw [List.dropWhile_cons, if_pos ha] at h
      exact List.mem_cons_of_mem a (ih h)
    · rw [List.dropWhile_cons, if_neg ha] at h
      exact h

theorem all_schemeChar_no_special {l : Str} (h : l.all schemeChar = true) :
    ':' ∉ l ∧ '/' ∉ l ∧ '?' ∉ l ∧ '#' ∉ l := by
  rw [List.all_eq_true] at h
  refine ⟨?_, ?_, ?_, ?_⟩ <;> intro hm
  · exact (schemeChar_not_special (h _ hm)).1 rfl
  · exact (schemeChar_not_special (h _ hm)).2.1 rfl
  · exact (schemeChar_not_special (h _ hm)).2.2.1 rfl
  · exact (schemeChar_not_special (h _ hm)).2.2.2 rfl

theorem scheme_map_facts {pre : Str} (hne : pre ≠ [])
    (hall : pre.all schemeChar = true)
    (hhead : isAsciiAlpha (pre.headD ' ') = true) :
    pre.map lowerChar ≠ []
    ∧ (pre.map lowerChar).all schemeChar = true
    ∧ isAsciiAlpha ((pre.map lowerChar).headD ' ') = true
    ∧ (pre.map lowerChar).map lowerChar = pre.map lowerChar := by
  cases pre with
  | nil => exact absurd rfl hne
  | cons a as =>
    refine ⟨by simp, ?_, ?_, ?_⟩
    · rw [List.all_map]
      rw [List.all_eq_true] at hall ⊢
      intro x hx
      exact lowerChar_schemeChar (hall x hx)
    · show isAsciiAlpha (lowerChar a) = true
      exact lowerChar_alpha hhead
    · rw [List.map_map]
      apply List.map_congr_left
      intro x _
      exact lowerChar_idem x

/-! Computation and component facts of urlparse. -/

theorem urlparseL_comp (l : Str) :
    urlparseL l
      = (let sp := schemeSplit l
         let np := netlocSplit sp.2
         let fp : Str × Str :=
           match splitFirstOn '#' np.2 with
           | some (a, b) => (a, b)
           | none => (np.2, [])
         let qp : Str × Str :=
           match splitFirstOn '?' fp.1 with
           | some (a, b) => (a, b)
           | none => (fp.1, [])
         let pp := splitParams qp.1
         ⟨sp.1, np.1, pp.1, pp.2, qp.2, fp.2⟩) := rfl

theorem urlparseL_scheme_comp (l : Str) :
    (urlparseL l).scheme = (schemeSplit l).1 := rfl

theorem scheme_of_colon_head (T : Str) : (urlparseL (':' :: T)).scheme = [] := by
  rw [urlparseL_scheme_comp]
  rw [schemeSplit_eq_some
    (show splitFirstOn ':' (':' :: T) = some ([], T) by simp [splitFirstOn])]
  rw [if_neg (by simp)]

/-- The components the first pass of clean_youtube_url produces: the
netloc stops at URL structure characters, the path contains no query or
fragment marker, and the path is parameter-free. -/
theorem urlparseL_first_run_facts (l : Str) :
    (urlparseL l).scheme = (schemeSplit l).1
    ∧ (urlparseL l).netloc.all (fun c => !netlocStop c) = true
    ∧ '?' ∉ (urlparseL l).path
    ∧ '#' ∉ (urlparseL l).path
    ∧ PathParam (urlparseL l).path := by
  rw [urlparseL_comp]
  rcases hf : splitFirstOn '#' (netlocSplit (schemeSplit l).2).2 with _ | ⟨fa, fb⟩
  · have hnof : '#' ∉ (netlocSplit (schemeSplit l).2).2 := splitFirstOn_none_not_mem hf
    rcases hq : splitFirstOn '?' (netlocSplit (schemeSplit l).2).2 with _ | ⟨qa, qb⟩
    · have hnoq : '?' ∉ (netlocSplit (schemeSplit l).2).2 := splitFirstOn_none_not_mem hq
      simp only [hf, hq]
      refine ⟨trivial, netlocSplit_fst_all _, ?_, ?_, splitParams_pathParam _⟩
      · intro hm; exact hnoq (splitParams_mem _ hm)
      · intro hm; exact hnof (splitParams_mem _ hm)
    · obtain ⟨hqeq, hqnm⟩ := splitFirstOn_some_spec hq
      simp only [hf, hq]
      refine ⟨trivial, netlocSplit_fst_all _, ?_, ?_, splitParams_pathParam _⟩
      · intro hm; exact hqnm (splitParams_mem _ hm)
      · intro hm
        exact hnof (by rw [hqeq]; exact List.mem_append_left _ (splitParams_mem _ hm))
  · obtain ⟨hfeq, hfnm⟩ := splitFirstOn_some_spec hf
    rcases hq : splitFirstOn '?' fa with _ | ⟨qa, qb⟩
    · have hnoq : '?' ∉ fa := splitFirstOn_none_not_mem hq
      simp only [hf, hq]
      refine ⟨trivial, netlocSplit_fst_all _, ?_, ?_, splitParams_pathParam _⟩
      · intro hm; exact hnoq (splitParams_mem _ hm)
      · intro hm; exact hfnm (splitParams_mem _ hm)
    · obtain ⟨hqeq, hqnm⟩ := splitFirstOn_some_spec hq
      simp only [hf, hq]
      refine ⟨trivial, netlocSplit_fst_all _, ?_, ?_, splitParams_pathParam _⟩
      · intro hm; exact hqnm (splitParams_mem _ hm)
      · intro hm
        exact hfnm (by rw [hqeq]; exact List.mem_append_left _ (splitParams_mem _ hm))

theorem schemeSplit_canonical {sch : Str} (R : Str) (hne : sch ≠ [])
    (hall : sch.all schemeChar = true)
    (hhead : isAsciiAlpha (sch.headD ' ') = true)
    (hlow : sch.map lowerChar = sch) :
    schemeSplit (sch ++ ':' :: R) = (sch, R) := by
  have hnc : ':' ∉ sch := (all_schemeChar_no_special hall).1
  rw [schemeSplit_eq_some (splitFirstOn_append R hnc),
    if_pos ⟨hne, hhead, hall⟩, hlow]

/-- Re-parsing a rebuilt URL without query: the scheme is recognised
unchanged, the netloc absorbs the stop-free prefix of the path, and the
remainder of the path survives with empty params, query and fragment. -/
theorem urlparseL_canonical_noq {sch nl pth : Str} (hne : sch ≠ [])
    (hall : sch.all schemeChar = true)
    (hhead : isAsciiAlpha (sch.headD ' ') = true)
    (hlow : sch.map lowerChar = sch)
    (hnl : nl.all (fun c => !netlocStop c) = true)
    (hpq : '?' ∉ pth) (hph : '#' ∉ pth) (hpp : PathParam pth) :
    urlparseL (sch ++ ':' :: ('/' :: '/' :: (nl ++ pth)))
      = ⟨sch, nl ++ pth.takeWhile (fun c => !netlocStop c),
         pth.dropWhile (fun c => !netlocStop c), [], [], []⟩ := by
  have hsch2 := schemeSplit_canonical ('/' :: '/' :: (nl ++ pth)) hne hall hhead hlow
  have hnet : netlocSplit ('/' :: '/' :: (nl ++ pth))
      = ((nl ++ pth).takeWhile (fun c => !netlocStop c),
         (nl ++ pth).dropWhile (fun c => !netlocStop c)) := rfl
  have htw : (nl ++ pth).takeWhile (fun c => !netlocStop c)
      = nl ++ pth.takeWhile (fun c => !netlocStop c) :=
    takeWhile_append_of_all pth hnl
  have hdw : (nl ++ pth).dropWhile (fun c => !netlocStop c)
      = pth.dropWhile (fun c => !netlocStop c) :=
    dropWhile_append_of_all pth hnl
  have hphB : '#' ∉ pth.dropWhile (fun c => !netlocStop c) :=
    fun hm => hph (mem_of_mem_dropWhile hm)
  have hpqB : '?' ∉ pth.dropWhile (fun c => !netlocStop c) :=
    fun hm => hpq (mem_of_mem_dropWhile hm)
  have hfr : splitFirstOn '#' (pth.dropWhile (fun c => !netlocStop c)) = none :=
    splitFirstOn_eq_none hphB
  have hqu : splitFirstOn '?' (pth.dropWhile (fun c => !netlocStop c)) = none :=
    splitFirstOn_eq_none hpqB
  have hppB : PathParam (pth.dropWhile (fun c => !netlocStop c)) :=
    PathParam_suffix (pth.takeWhile (fun c => !netlocStop c)) pth
      (pth.dropWhile (fun c => !netlocStop c))
      (List.takeWhile_append_dropWhile (fun c => !netlocStop c) pth).symm hpp
  have hsp : splitParams (pth.dropWhile (fun c => !netlocStop c))
      = (pth.dropWhile (fun c => !netlocStop c), []) :=
    splitParams_of_pathParam hppB
  rw [urlparseL_comp]
  simp only [hsch2, hnet, htw, hdw, hfr, hqu, hsp]

/-- Re-parsing a rebuilt URL with query: the scheme and query survive,
the netloc absorbs the stop-free prefix of the path, and the params and
fragment are empty. -/
theorem urlparseL_canonical_q {sch nl pth q : Str} (hne : sch ≠ [])
    (hall : sch.all schemeChar = true)
    (hhead : isAsciiAlpha (sch.headD ' ') = true)
    (hlow : sch.map lowerChar = sch)
    (hnl : nl.all (fun c => !netlocStop c) = true)
    (hpq : '?' ∉ pth) (hph : '#' ∉ pth) (hpp : PathParam pth)
    (hqf : '#' ∉ q) :
    urlparseL (sch ++ ':' :: ('/' :: '/' :: (nl ++ (pth ++ '?' :: q))))
      = ⟨sch, nl ++ pth.takeWhile (fun c => !netlocStop c),
         pth.dropWhile (fun c => !netlocStop c), [], q, []⟩ := by
  have hsch2 := schemeSplit_canonical ('/' :: '/' :: (nl ++ (pth ++ '?' :: q)))
    hne hall hhead hlow
  have hnet : netlocSplit ('/' :: '/' :: (nl ++ (pth ++ '?' :: q)))
      = ((nl ++ (pth ++ '?' :: q)).takeWhile (fun c => !netlocStop c),
         (nl ++ (pth ++ '?' :: q)).dropWhile (fun c => !netlocStop c)) := rfl
  have hpqB : '?' ∉ pth.dropWhile (fun c => !netlocStop c) :=
    fun hm => hpq (mem_of_mem_dropWhile hm)
  have hphB : '#' ∉ pth.dropWhile (fun c => !netlocStop c) :=
    fun hm => hph (mem_of_mem_dropWhile hm)
  have hheadn : ∀ c, ((pth.dropWhile (fun c => !netlocStop c)) ++ '?' :: q).head?
        = some c → (fun c => !netlocStop c) c = false := by
    intro c hc
    cases hB : pth.dropWhile (fun c => !netlocStop c) with
    | nil =>
      rw [hB] at hc
      have hqc : '?' = c := by simpa using hc
      rw [← hqc]
      decide
    | cons b bs =>
      rw [hB] at hc
      have hbc : b = c := by simpa using hc
      have hh : (pth.dropWhile (fun c => !netlocStop c)).head? = some c := by
        rw [hB, hbc]; rfl
      exact head_dropWhile_false hh
  have hsplit : pth.takeWhile (fun c => !netlocStop c)
        ++ (pth.dropWhile (fun c => !netlocStop c) ++ '?' :: q)
      = pth ++ '?' :: q := by
    rw [← List.append_assoc,
      List.takeWhile_append_dropWhile (fun c => !netlocStop c) pth]
  have hTW : (nl ++ (pth ++ '?' :: q)).takeWhile (fun c => !netlocStop c)
      = nl ++ pth.takeWhile (fun c => !netlocStop c) := by
    rw [takeWhile_append_of_all _ hnl]
    congr 1
    rw [← hsplit]
    rw [takeWhile_append_of_all _ (all_takeWhile pth)]
    rw [(takeWhile_nil_of_head hheadn).1, List.append_nil]
  have hDW : (nl ++ (pth ++ '?' :: q)).dropWhile (fun c => !netlocStop c)
      = pth.dropWhile (fun c => !netlocStop c) ++ '?' :: q := by
    rw [dropWhile_append_of_all _ hnl]
    rw [← hsplit]
    rw [dropWhile_append_of_all _ (all_takeWhile pth)]
    exact (takeWhile_nil_of_head hheadn).2
  have hnofr : '#' ∉ pth.dropWhile (fun c => !netlocStop c) ++ '?' :: q := by
    intro hm
    rcases List.mem_append.mp hm with h1 | h2
    · exact hphB h1
    · rcases List.mem_cons.mp h2 with h3 | h4
      · exact absurd h3 (by decide)
      · exact hqf h4
  have hfr : splitFirstOn '#'
      (pth.dropWhile (fun c => !netlocStop c) ++ '?' :: q) = none :=
    splitFirstOn_eq_none hnofr
  have hqu : splitFirstOn '?'
        (pth.dropWhile (fun c => !netlocStop c) ++ '?' :: q)
      = some (pth.dropWhile (fun c => !netlocStop c), q) :=
    splitFirstOn_append q hpqB
  have hppB : PathParam (pth.dropWhile (fun c => !netlocStop c)) :=
    PathParam_suffix (pth.takeWhile (fun c => !netlocStop c)) pth
      (pth.dropWhile (fun c => !netlocStop c))
      (List.takeWhile_append_dropWhile (fun c => !netlocStop c) pth).symm hpp
  have hsp : splitParams (pth.dropWhile (fun c => !netlocStop c))
      = (pth.dropWhile (fun c => !netlocStop c), []) :=
    splitParams_of_pathParam hppB
  rw [urlparseL_comp]
  simp only [hsch2, hnet, hTW, hDW, hfr, hqu, hsp]

theorem parse_qsL_nil : parse_qsL [] = [] := rfl

theorem mk_eq_of_data {x : Str} {c : String} (h : c.data = x) : String.mk x = c := by
  cases c with
  | mk dat => exact congrArg String.mk h.symm

theorem takeWhile_append_dropWhile_append {p : Char → Bool} (l x : Str) :
    l.takeWhile p ++ (l.dropWhile p ++ x) = l ++ x := by
  rw [← List.append_assoc, List.takeWhile_append_dropWhile]

theorem urlparseL_scheme_of_head_colon {l : Str} (h : l.head? = some ':') :
    (urlparseL l).scheme = [] := by
  cases l with
  | nil => simp at h
  | cons a as =>
    have ha : a = ':' := by simpa using h
    rw [ha]
    exact scheme_of_colon_head as

/-- Cleaning a string that is exactly the rebuilt output of
clean_youtube_url (with a valid lowercase scheme and no surrounding
whitespace) returns it unchanged. -/
theorem clean_rebuilt_fixed (sch nl pth : Str) (d : List (Str × List Str))
    (hne : sch ≠ []) (hall : sch.all schemeChar = true)
    (hhead : isAsciiAlpha (sch.headD ' ') = true)
    (hlow : sch.map lowerChar = sch)
    (hnl : nl.all (fun c => !netlocStop c) = true)
    (hpq : '?' ∉ pth) (hph : '#' ∉ pth) (hpp : PathParam pth)
    (hrt : (parse_qsL (urlencodeL d)).filter
        (fun kv => !(params_to_remove.contains kv.1)) = d)
    (c : String)
    (hstripd : pyStripL c.data = c.data)
    (hcd : c.data
      = if d ≠ [] then sch ++ ':' :: '/' :: '/' :: nl ++ pth ++ '?' :: urlencodeL d
        else sch ++ ':' :: '/' :: '/' :: nl ++ pth) :
    clean_youtube_url (some c) = some c := by
  by_cases hdnil : d = []
  · rw [if_neg (fun hx => hx hdnil)] at hcd
    have hcd2 : c.data = sch ++ ':' :: ('/' :: '/' :: (nl ++ pth)) := by
      rw [hcd]; simp [List.append_assoc]
    have hcne : c ≠ "" := by
      intro he
      have hnil : c.data = [] := by rw [he]
      rw [hcd2] at hnil
      cases sch with
      | nil => exact hne rfl
      | cons a as => simp at hnil
    simp only [clean_youtube_url]
    rw [if_neg hcne, hstripd, hcd2,
      urlparseL_canonical_noq hne hall hhead hlow hnl hpq hph hpp]
    have hq0 : (parse_qsL (PyUrl.mk sch
          (nl ++ pth.takeWhile (fun c => !netlocStop c))
          (pth.dropWhile (fun c => !netlocStop c)) [] [] []).query).filter
        (fun kv => !(params_to_remove.contains kv.1)) = [] := by
      show (parse_qsL ([] : Str)).filter
        (fun kv => !(params_to_remove.contains kv.1)) = []
      rw [parse_qsL_nil]
      rfl
    rw [if_neg (by rw [hq0]; simp)]
    apply congrArg some
    apply mk_eq_of_data
    rw [hcd2]
    simp [List.append_assoc, List.takeWhile_append_dropWhile,
      takeWhile_append_dropWhile_append]
  · have hdne : d ≠ [] := hdnil
    rw [if_pos hdne] at hcd
    have hqf : '#' ∉ urlencodeL d :=
      urlencodeL_no_special d '#' (by decide) (by decide) (by decide) (by decide)
        (by decide)
    have hcd2 : c.data
        = sch ++ ':' :: ('/' :: '/' :: (nl ++ (pth ++ '?' :: urlencodeL d))) := by
      rw [hcd]; simp [List.append_assoc]
    have hcne : c ≠ "" := by
      intro he
      have hnil : c.data = [] := by rw [he]
      rw [hcd2] at hnil
      cases sch with
      | nil => exact hne rfl
      | cons a as => simp at hnil
    simp only [clean_youtube_url]
    rw [if_neg hcne, hstripd, hcd2,
      urlparseL_canonical_q hne hall hhead hlow hnl hpq hph hpp hqf]
    have hqd : (parse_qsL (PyUrl.mk sch
          (nl ++ pth.takeWhile (fun c => !netlocStop c))
          (pth.dropWhile (fun c => !netlocStop c)) [] (urlencodeL d) []).query).filter
        (fun kv => !(params_to_remove.contains kv.1)) = d := by
      show (parse_qsL (urlencodeL d)).filter
        (fun kv => !(params_to_remove.contains kv.1)) = d
      exact hrt
    rw [if_pos (by rw [hqd]; exact hdne)]
    rw [hqd]
    apply congrArg some
    apply mk_eq_of_data
    rw [hcd2]
    simp [List.append_assoc, List.takeWhile_append_dropWhile,
      takeWhile_append_dropWhile_append]

/-- C8 (amended): clean_youtube_url is idempotent on every output whose
canonical form parses with a non-empty scheme and carries no surrounding
whitespace: if cleaning u yields c, c re-parses with a scheme and c is
strip-fixed, then cleaning c yields c again.  (The unconditional claim is
refuted by C8_counterexample_not_idempotent: a scheme-less input gains a
fresh :// on every pass.) -/
theorem C8_amended_idempotent_on_canonical (u c : String)
    (h : clean_youtube_url (some u) = some c)
    (hsch : (urlparseL c.data).scheme ≠ [])
    (hstrip : pyStrip c = c) :
    clean_youtube_url (some c) = some c := by
  have hstripd : pyStripL c.data = c.data := congrArg String.data hstrip
  simp only [clean_youtube_url] at h
  by_cases hu : u = ""
  · rw [if_pos hu] at h
    exact absurd h (by simp)
  · rw [if_neg hu] at h
    obtain ⟨hps, hpn, hq1, hh1, hpp1⟩ := urlparseL_first_run_facts (pyStripL u.data)
    have hcd : c.data
        = if (parse_qsL (urlparseL (pyStripL u.data)).query).filter
              (fun kv => !(params_to_remove.contains kv.1)) ≠ [] then
            (urlparseL (pyStripL u.data)).scheme ++ ':' :: '/' :: '/'
              :: (urlparseL (pyStripL u.data)).netloc ++ (urlparseL (pyStripL u.data)).path
              ++ '?' :: urlencodeL ((parse_qsL (urlparseL (pyStripL u.data)).query).filter
                  (fun kv => !(params_to_remove.contains kv.1)))
          else
            (urlparseL (pyStripL u.data)).scheme ++ ':' :: '/' :: '/'
              :: (urlparseL (pyStripL u.data)).netloc
              ++ (urlparseL (pyStripL u.data)).path := by
      by_cases hqp : (parse_qsL (urlparseL (pyStripL u.data)).query).filter
          (fun kv => !(params_to_remove.contains kv.1)) ≠ []
      · rw [if_pos hqp] at h ⊢
        rw [← Option.some.inj h]
      · rw [if_neg hqp] at h ⊢
        rw [← Option.some.inj h]
    rcases schemeSplit_spec (pyStripL u.data) with hs0 |
      ⟨pre, rest, hleq, hseq, hpre_ne, hpre_all, hpre_head⟩
    · have hs1 : (urlparseL (pyStripL u.data)).scheme = [] := by rw [hps, hs0]
      rw [hs1] at hcd
      have hhc : c.data.head? = some ':' := by
        rw [hcd]
        by_cases hqp : (parse_qsL (urlparseL (pyStripL u.data)).query).filter
            (fun kv => !(params_to_remove.contains kv.1)) ≠ []
        · rw [if_pos hqp]; simp
        · rw [if_neg hqp]; simp
      exact absurd (urlparseL_scheme_of_head_colon hhc) hsch
    · obtain ⟨hmne, hmall, hmhead, hmidem⟩ :=
        scheme_map_facts hpre_ne hpre_all hpre_head
      have hs1 : (urlparseL (pyStripL u.data)).scheme = pre.map lowerChar := by
        rw [hps, hseq]
      rw [hs1] at hcd
      exact clean_rebuilt_fixed (pre.map lowerChar)
        (urlparseL (pyStripL u.data)).netloc (urlparseL (pyStripL u.data)).path
        ((parse_qsL (urlparseL (pyStripL u.data)).query).filter
          (fun kv => !(params_to_remove.contains kv.1)))
        hmne hmall hmhead hmidem hpn hq1 hh1 hpp1
        (query_roundtrip (urlparseL (pyStripL u.data)).query).2
        c hstripd hcd

theorem C8_amended_idempotent_on_canonical_witness :
    clean_youtube_url (some "http://a/b") = some "http://a/b"
    ∧ (urlparseL "http://a/b".data).scheme ≠ []
    ∧ pyStrip "http://a/b" = "http://a/b"
    ∧ clean_youtube_url (some "http://a/b") = some "http://a/b" :=
  ⟨by rfl, by decide, by rfl,
    C8_amended_idempotent_on_canonical "http://a/b" "http://a/b"
      (by rfl) (by decide) (by rfl)⟩

end Songwish
